import Mathlib

/-!
Shallow embedding of the in-memory navigation graph service of this repository
(`backend/app/services/graph_service.py`) and of the route endpoint
(`backend/app/api/endpoints/navigation.py`), together with proofs of the
specification claims about them.

Modelling conventions:
* Python `dict`s are modelled as insertion-ordered association lists
  (`List (κ × α)`) with `dget`/`dset` mirroring `d[k]`/`d.get(k)` and
  `d[k] = v` (replace in place, else append), so iteration order is faithful.
  For the two dictionaries internal to `astar` (`g_scores`, `came_from`) only
  lookups are ever observable, so updates there shadow by consing at the front.
* Python floats (coordinates, weights, distances) are modelled as `ℚ`;
  `float('inf')` becomes the `none` of an `Option ℚ` result component.
  `math.sqrt` is modelled as an arbitrary function parameter `sqrtFn : ℚ → ℚ`:
  every theorem below holds for all choices of it.
* `heapq` is observationally a multiset with pop-minimum (tuples are compared
  lexicographically, so all minimal elements are equal as values); `popMin`
  pops the first occurrence of the minimum of the open list.
-/

/-- Lookup in a Python-dict modelled as an association list: first binding of
the key, `d.get(k)` / `k in d`. -/
def dget {κ α : Type} [DecidableEq κ] : List (κ × α) → κ → Option α
  | [], _ => none
  | (k', v) :: t, k => if k' = k then some v else dget t k

/-- Python-dict assignment `d[k] = v`: replace the binding in place if the key
is present, otherwise append the new binding at the end (insertion order). -/
def dset {κ α : Type} [DecidableEq κ] : List (κ × α) → κ → α → List (κ × α)
  | [], k, v => [(k, v)]
  | (k', v') :: t, k, v => if k' = k then (k, v) :: t else (k', v') :: dset t k v

@[simp] theorem dget_nil {κ α : Type} [DecidableEq κ] (k : κ) :
    dget ([] : List (κ × α)) k = none := rfl

@[simp] theorem dget_cons {κ α : Type} [DecidableEq κ] (k' k : κ) (v : α) (t : List (κ × α)) :
    dget ((k', v) :: t) k = if k' = k then some v else dget t k := rfl

@[simp] theorem dget_dset_self {κ α : Type} [DecidableEq κ]
    (l : List (κ × α)) (k : κ) (v : α) : dget (dset l k v) k = some v := by
  induction l with
  | nil => simp [dset]
  | cons p t ih =>
    obtain ⟨k', v'⟩ := p
    by_cases h : k' = k <;> simp [dset, h, ih]

@[simp] theorem dget_dset_ne {κ α : Type} [DecidableEq κ]
    (l : List (κ × α)) (k k' : κ) (v : α) (h : k ≠ k') :
    dget (dset l k v) k' = dget l k' := by
  induction l with
  | nil => simp [dset, h]
  | cons p t ih =>
    obtain ⟨k₀, v₀⟩ := p
    by_cases h₀ : k₀ = k
    · subst h₀
      simp [dset, h]
    · simp only [dset, if_neg h₀, dget_cons]
      by_cases h₁ : k₀ = k' <;> simp [h₁, ih]

/-- A key with a binding occurs among the keys of the association list. -/
theorem dget_isSome_mem_keys {κ α : Type} [DecidableEq κ]
    {l : List (κ × α)} {k : κ} (h : (dget l k).isSome) : k ∈ l.map Prod.fst := by
  induction l with
  | nil => simp [dget] at h
  | cons p t ih =>
    obtain ⟨k', v⟩ := p
    by_cases hk : k' = k
    · subst hk; simp
    · simp only [dget_cons, if_neg hk] at h
      simpa using Or.inr (ih h)

/-- A successful lookup is a member of the association list. -/
theorem dget_mem {κ α : Type} [DecidableEq κ] {l : List (κ × α)} {k : κ} {v : α}
    (h : dget l k = some v) : (k, v) ∈ l := by
  induction l with
  | nil => simp [dget] at h
  | cons p t ih =>
    obtain ⟨k', v'⟩ := p
    by_cases hk : k' = k
    · subst hk
      simp only [dget, if_pos rfl, Option.some.injEq, reduceIte] at h
      subst h
      exact List.mem_cons_self _ _
    · simp only [dget, if_neg hk] at h
      exact List.mem_cons_of_mem _ (ih h)

/-! ## Data model (from `app/models/node.py`, `app/models/edge.py` and the
dictionaries built in `GraphService.load_graph_from_db`) -/

/-- A node record as loaded from the database (`Node` model): `name` and
`floor` are non-nullable columns, `detail`, `x`, `y`, `node_type` nullable. -/
structure DBNode where
  id : String
  name : String
  detail : Option String
  floor : Int
  x : Option ℚ
  y : Option ℚ
  node_type : Option String
deriving DecidableEq

/-- An edge record as loaded from the database (`Edge` model). -/
structure DBEdge where
  from_node_id : String
  to_node_id : String
  weight : ℚ
  edge_type : String
  is_vertical : Bool
deriving DecidableEq

/-- The per-node dictionary stored in `GraphService.nodes_info` (same seven
keys as the Python dict literal in `load_graph_from_db`). -/
structure NodeInfo where
  id : String
  name : String
  detail : Option String
  floor : Int
  x : Option ℚ
  y : Option ℚ
  node_type : Option String
deriving DecidableEq

/-- The per-edge dictionary stored in `GraphService.edges_info`. -/
structure EdgeInfo where
  weight : ℚ
  edge_type : String
  is_vertical : Bool
deriving DecidableEq

/-- Adjacency structure: node id to list of `(neighbor_id, weight, edge_type)`,
exactly the type of `GraphService.graph`. -/
abbrev Graph := List (String × List (String × ℚ × String))

/-- In-memory state of `GraphService`: adjacency dict, node-info dict,
edge-info dict (keyed by ordered id pair) and the `_loaded` flag. -/
structure GraphService where
  graph : Graph
  nodes_info : List (String × NodeInfo)
  edges_info : List ((String × String) × EdgeInfo)
  loaded : Bool
deriving DecidableEq

namespace GraphService

/-- The state built by `GraphService.__init__`: all dictionaries empty and the
loaded flag false (cache stale). -/
def init : GraphService := ⟨[], [], [], false⟩

/-- Embeds `GraphService.reload_required`. -/
def reload_required (svc : GraphService) : Bool := !svc.loaded

/-- Embeds `GraphService.clear_cache`: clear all three dictionaries and reset
the loaded flag. -/
def clear_cache (_svc : GraphService) : GraphService := ⟨[], [], [], false⟩

/-- The node-info dict literal built for each node in `load_graph_from_db`. -/
def nodeInfoOf (n : DBNode) : NodeInfo :=
  ⟨n.id, n.name, n.detail, n.floor, n.x, n.y, n.node_type⟩

/-- Processing of one node record in `load_graph_from_db`: store its info and
initialize an empty adjacency entry if the id is not yet a key. -/
def loadNode (svc : GraphService) (n : DBNode) : GraphService :=
  let svc := { svc with nodes_info := dset svc.nodes_info n.id (nodeInfoOf n) }
  if (dget svc.graph n.id).isSome then svc
  else { svc with graph := dset svc.graph n.id [] }

/-- The `if node_id not in self.graph: self.graph[node_id] = []` idiom. -/
def ensureKey (G : Graph) (k : String) : Graph :=
  if (dget G k).isSome then G else dset G k []

/-- The `self.graph[k].append(tup)` idiom. -/
def appendAdj (G : Graph) (k : String) (tup : String × ℚ × String) : Graph :=
  dset G k (((dget G k).getD []) ++ [tup])

/-- Processing of one edge record in `load_graph_from_db`: store the edge info
under both ordered key pairs, make sure both endpoints are adjacency keys, and
append the edge to both endpoint adjacency lists. -/
def loadEdge (svc : GraphService) (e : DBEdge) : GraphService :=
  let info : EdgeInfo := ⟨e.weight, e.edge_type, e.is_vertical⟩
  let ei := dset (dset svc.edges_info (e.from_node_id, e.to_node_id) info)
    (e.to_node_id, e.from_node_id) info
  let g := ensureKey (ensureKey svc.graph e.from_node_id) e.to_node_id
  let g := appendAdj g e.from_node_id (e.to_node_id, e.weight, e.edge_type)
  let g := appendAdj g e.to_node_id (e.from_node_id, e.weight, e.edge_type)
  { svc with edges_info := ei, graph := g }

/-- Embeds `GraphService.load_graph_from_db`: fold all node records, then all
edge records, into the current in-memory state and set the loaded flag. The
database session is modelled by the full lists of records it returns. -/
def load_graph_from_db (svc : GraphService) (nodes : List DBNode) (edges : List DBEdge) :
    GraphService :=
  let svc := nodes.foldl loadNode svc
  let svc := edges.foldl loadEdge svc
  { svc with loaded := true }

/-- Embeds `GraphService.get_node_info`. -/
def get_node_info (svc : GraphService) (node_id : String) : Option NodeInfo :=
  dget svc.nodes_info node_id

/-- Embeds `GraphService.get_edge_info`. -/
def get_edge_info (svc : GraphService) (from_id to_id : String) : Option EdgeInfo :=
  dget svc.edges_info (from_id, to_id)

end GraphService

/-! ## Heuristic (`GraphService._heuristic`) -/

/-- Python truthiness of an optional float: `None` and `0.0` are falsy. This is
the test `all([node1.get("x"), node1.get("y"), ...])` performs on each
coordinate in `_heuristic`. -/
def truthyQ : Option ℚ → Bool
  | none => false
  | some v => v != 0

namespace GraphService

/-- Embeds `GraphService._heuristic`. `math.sqrt` is an arbitrary parameter
`sqrtFn`; the floor of a missing node defaults to `0` (`node.get("floor", 0)`),
and a coordinate passes the guard only when present and nonzero (Python
truthiness of `node.get("x")` and friends). -/
def heuristic (sqrtFn : ℚ → ℚ) (nodes : List (String × NodeInfo)) (a b : String) : ℚ :=
  let n1 := dget nodes a
  let n2 := dget nodes b
  let x1 := n1.bind NodeInfo.x
  let y1 := n1.bind NodeInfo.y
  let x2 := n2.bind NodeInfo.x
  let y2 := n2.bind NodeInfo.y
  let f1 : Int := (n1.map NodeInfo.floor).getD 0
  let f2 : Int := (n2.map NodeInfo.floor).getD 0
  if truthyQ x1 && truthyQ y1 && truthyQ x2 && truthyQ y2 then
    let dx := x1.getD 0 - x2.getD 0
    let dy := y1.getD 0 - y2.getD 0
    sqrtFn (dx * dx + dy * dy) + ((f1 - f2).natAbs : ℚ) * 30
  else
    ((f1 - f2).natAbs : ℚ) * 50

end GraphService

/-! ## A* search (`GraphService.astar`) -/

/-- Lexicographic strict order on the heap tuples `(f_score, g_score, node_id)`
used by `heapq` (Python tuple comparison; strings compare by code point). -/
def tupLt (a b : ℚ × ℚ × String) : Bool :=
  decide (a.1 < b.1) ||
    (a.1 == b.1 && (decide (a.2.1 < b.2.1) ||
      (a.2.1 == b.2.1 && decide (a.2.2 < b.2.2))))

/-- Pop the minimum of the open list under `tupLt` (ties keep the earliest
occurrence), returning the popped tuple and the remaining list. `heapq.heappop`
always returns a minimal tuple, and all minimal tuples are equal as values,
so this is observationally the heap behavior. -/
def popMin : List (ℚ × ℚ × String) → Option ((ℚ × ℚ × String) × List (ℚ × ℚ × String))
  | [] => none
  | a :: rest =>
    match popMin rest with
    | none => some (a, [])
    | some (m, rest') => if tupLt m a then some (m, a :: rest') else some (a, rest)

/-- The open list is empty exactly when there is nothing to pop. -/
theorem popMin_eq_none {l : List (ℚ × ℚ × String)} : popMin l = none ↔ l = [] := by
  cases l with
  | nil => simp [popMin]
  | cons a t =>
    simp only [popMin]
    cases popMin t with
    | none => simp
    | some p =>
      obtain ⟨m, r⟩ := p
      by_cases h : tupLt m a <;> simp [h]

/-- The popped element together with the rest is a permutation of the input:
this is the only fact about `popMin` the correctness proofs rely on (which
minimal element is popped never affects the claims proved here). -/
theorem popMin_perm {l : List (ℚ × ℚ × String)} {m rest} (h : popMin l = some (m, rest)) :
    l.Perm (m :: rest) := by
  induction l generalizing m rest with
  | nil => simp [popMin] at h
  | cons a t ih =>
    simp only [popMin] at h
    cases ht : popMin t with
    | none =>
      have hnil : t = [] := popMin_eq_none.mp ht
      subst hnil
      rw [ht] at h
      simp only [Option.some.injEq, Prod.mk.injEq] at h
      obtain ⟨rfl, rfl⟩ := h
      exact List.Perm.refl _
    | some p =>
      obtain ⟨m', rest'⟩ := p
      rw [ht] at h
      dsimp only at h
      by_cases hc : tupLt m' a
      · rw [if_pos hc] at h
        simp only [Option.some.injEq, Prod.mk.injEq] at h
        obtain ⟨rfl, rfl⟩ := h
        exact (List.Perm.cons a (ih ht)).trans (List.Perm.swap m' a rest')
      · rw [if_neg hc] at h
        simp only [Option.some.injEq, Prod.mk.injEq] at h
        obtain ⟨rfl, rfl⟩ := h
        exact List.Perm.refl _

/-- Neighbor list of a node: `self.graph.get(current, [])`. -/
def adjOf (G : Graph) (u : String) : List (String × ℚ × String) :=
  (dget G u).getD []

/-- Mutable state of the `while open_set` loop in `GraphService.astar`: the
open heap, the closed set (as a list in closing order, membership being the
Python set), `g_scores` and `came_from`. -/
structure AState where
  openSet : List (ℚ × ℚ × String)
  closed : List String
  gScores : List (String × ℚ)
  cameFrom : List (String × Option String)

/-- Path reconstruction in `astar`: walk `came_from` from the popped end node,
collecting nodes, until `came_from.get(node)` yields nothing (`None` value or
missing key); the Python append-then-reverse is realized by consing onto the
accumulator. The fuel argument only makes the recursion structural; the caller
passes enough of it for every walk that actually occurs (proved below). -/
def reconstruct (cF : List (String × Option String)) : Nat → String → List String → List String
  | 0, _, acc => acc
  | fuel + 1, node, acc =>
    match (dget cF node).getD none with
    | none => node :: acc
    | some nxt => reconstruct cF fuel nxt (node :: acc)

/-- One iteration of the `for neighbor, weight, edge_type in ...` loop in
`astar`, expanding the newly closed node `u`: skip closed neighbors, otherwise
relax when the neighbor has no `g_score` yet or the tentative score improves
it, pushing `(tentative + h(neighbor), tentative, neighbor)` onto the heap.
`h` is the heuristic toward the fixed end node. -/
def relaxOne (h : String → ℚ) (u : String) (st : AState) (nbr : String × ℚ × String) :
    AState :=
  let v := nbr.1
  let w := nbr.2.1
  if v ∈ st.closed then st
  else
    let gu := (dget st.gScores u).getD 0
    let tg := gu + w
    let doRelax := match dget st.gScores v with
      | none => true
      | some gv => decide (tg < gv)
    if doRelax then
      { st with gScores := (v, tg) :: st.gScores,
                cameFrom := (v, some u) :: st.cameFrom,
                openSet := st.openSet ++ [(tg + h v, tg, v)] }
    else st

/-- Expansion of a freshly popped, not yet closed node `u`: add it to the
closed set and run the neighbor loop. The caller has already removed the
popped tuple from `st.openSet`. -/
def expand (G : Graph) (h : String → ℚ) (u : String) (st : AState) : AState :=
  (adjOf G u).foldl (relaxOne h u) { st with closed := st.closed ++ [u] }

/-- The `while open_set` loop of `astar`, with explicit fuel (the loop
terminates because every iteration pops one tuple and pushes at most the
degree of a node closed in that very iteration; `astar` below passes fuel
exceeding that bound, and the exhaustion theorem verifies the fuel-out branch
is never the one that answers). -/
def astarLoop (G : Graph) (h : String → ℚ) (endId : String) :
    Nat → AState → Option ℚ × List String
  | 0, _ => (none, [])
  | fuel + 1, st =>
    match popMin st.openSet with
    | none => (none, [])
    | some (tup, rest) =>
      let current := tup.2.2
      if current = endId then
        (dget st.gScores endId,
          reconstruct st.cameFrom (st.cameFrom.length + 1) current [])
      else if current ∈ st.closed then
        astarLoop G h endId fuel { st with openSet := rest }
      else
        astarLoop G h endId fuel (expand G h current { st with openSet := rest })

/-- Total length of all adjacency lists (used only to size the loop fuel). -/
def degSum (G : Graph) : Nat := (G.map (fun p => p.2.length)).sum

namespace GraphService

/-- Embeds `GraphService.astar`: missing endpoints give `(inf, [])` (`none`
models `float('inf')`), a trivial query answers immediately, otherwise the
heap loop runs from `{start: 0}` / `{start: None}` with the heuristic toward
`end_id`. -/
def astar (svc : GraphService) (sqrtFn : ℚ → ℚ) (start_id end_id : String) :
    Option ℚ × List String :=
  if (dget svc.graph start_id).isNone || (dget svc.graph end_id).isNone then
    (none, [])
  else if start_id = end_id then
    (some 0, [start_id])
  else
    astarLoop svc.graph (fun v => heuristic sqrtFn svc.nodes_info v end_id) end_id
      (degSum svc.graph + 2)
      ⟨[(0, 0, start_id)], [], [(start_id, 0)], [(start_id, none)]⟩

end GraphService

/-! ## Specification-side notions: adjacency, reachability, valid paths -/

/-- One traversable edge of the in-memory graph, as `astar` sees it. -/
def adjacent (G : Graph) (u v : String) : Prop :=
  ∃ w t, (v, w, t) ∈ adjOf G u

/-- Reachability along traversable edges. For the symmetric adjacency
structures this service builds, this is membership in the connected component
of the first node. -/
def Reachable (G : Graph) (a b : String) : Prop :=
  Relation.ReflTransGen (adjacent G) a b

/-- Executable test that every stored edge weight is nonnegative (the data
model declares weights as nonnegative distances). -/
def wNonnegB (G : Graph) : Bool :=
  G.all fun p => p.2.all fun nbr => decide (0 ≤ nbr.2.1)

/-- Executable test that the adjacency structure is symmetric, as the graph
builder guarantees for every loaded graph. -/
def symmB (G : Graph) : Bool :=
  G.all fun p => p.2.all fun nbr => decide ((p.1, nbr.2.1, nbr.2.2) ∈ adjOf G nbr.1)

/-- Weights met along adjacency lists are nonnegative, in propositional form. -/
theorem wNonnegB_spec {G : Graph} (hw : wNonnegB G = true) {u v : String} {w : ℚ}
    {t : String} (hmem : (v, w, t) ∈ adjOf G u) : 0 ≤ w := by
  rw [wNonnegB, List.all_eq_true] at hw
  rcases hadj : dget G u with _ | l
  · simp [adjOf, hadj] at hmem
  · have hkey : (u, l) ∈ G := dget_mem hadj
    have := hw _ hkey
    rw [List.all_eq_true] at this
    have := this _ (by simpa [adjOf, hadj] using hmem)
    simpa using this

/-- A valid traversal of the graph from `a` to `b` along the listed nodes,
accumulating the traversed edge weights. `ValidPath G a b p d` says: `p` is a
nonempty node sequence starting at `a` and ending at `b`, each consecutive
pair is joined by a stored edge, and the chosen edges' weights sum to `d`. -/
inductive ValidPath (G : Graph) : String → String → List String → ℚ → Prop
  | single (a : String) : ValidPath G a a [a] 0
  | cons {b c : String} (a : String) {w : ℚ} {t : String} {rest : List String} {d : ℚ}
      (hadj : (b, w, t) ∈ adjOf G a) (hrest : ValidPath G b c rest d) :
      ValidPath G a c (a :: rest) (w + d)

theorem ValidPath.shape {G : Graph} {a b : String} {p : List String} {d : ℚ}
    (h : ValidPath G a b p d) : ∃ tl, p = a :: tl := by
  cases h <;> exact ⟨_, rfl⟩

theorem ValidPath.head_eq {G : Graph} {a b : String} {p : List String} {d : ℚ}
    (h : ValidPath G a b p d) : p.head? = some a := by
  obtain ⟨tl, rfl⟩ := h.shape
  rfl

theorem ValidPath.last_eq {G : Graph} {a b : String} {p : List String} {d : ℚ}
    (h : ValidPath G a b p d) : p.getLast? = some b := by
  induction h with
  | single a => rfl
  | cons a hadj hrest ih =>
    obtain ⟨tl, htl⟩ := hrest.shape
    subst htl
    exact ih

theorem ValidPath.reachable {G : Graph} {a b : String} {p : List String} {d : ℚ}
    (h : ValidPath G a b p d) : Reachable G a b := by
  induction h with
  | single a => exact Relation.ReflTransGen.refl
  | cons a hadj hrest ih =>
    exact Relation.ReflTransGen.head ⟨_, _, hadj⟩ ih

/-- Extending a valid path by one further edge at its end. -/
theorem ValidPath.snoc {G : Graph} {a b c : String} {p : List String} {d w : ℚ}
    {t : String} (h : ValidPath G a b p d) (hadj : (c, w, t) ∈ adjOf G b) :
    ValidPath G a c (p ++ [c]) (d + w) := by
  induction h with
  | single x =>
    have : (0 : ℚ) + w = w + 0 := by ring
    rw [this]
    exact ValidPath.cons x hadj (ValidPath.single c)
  | cons x hadj0 hrest ih =>
    rename_i w0 t0 rest d0
    have : w0 + d0 + w = w0 + (d0 + w) := by ring
    rw [this]
    exact ValidPath.cons x hadj0 (ih hadj)

/-! ## Loop invariant of `astar` -/

/-- Invariant of the `astar` main loop for graph `G`, start `s`, end `e`:
`g_scores` holds `0` for the start and only nonnegative values, every heap
entry and every closed node has a `g_score`, every scored node is closed or
still on the heap, closed nodes have fully scored neighborhoods, `came_from`
entries point to closed predecessors over real edges with consistent
`g_scores`, predecessors come earlier in closing order, only the start maps to
`None`, `came_from` and `g_scores` share their key set, every scored node is
reachable from the start, and the end node is never closed (the loop returns
on popping it instead). -/
structure AInv (G : Graph) (s e : String) (st : AState) : Prop where
  start_g : dget st.gScores s = some 0
  g_nonneg : ∀ v g, dget st.gScores v = some g → 0 ≤ g
  open_g : ∀ tup ∈ st.openSet, (dget st.gScores tup.2.2).isSome
  g_cover : ∀ v, (dget st.gScores v).isSome →
    v ∈ st.closed ∨ ∃ tup ∈ st.openSet, tup.2.2 = v
  closed_g : ∀ v ∈ st.closed, (dget st.gScores v).isSome
  closed_nb : ∀ u ∈ st.closed, ∀ nbr ∈ adjOf G u, (dget st.gScores nbr.1).isSome
  cf_some : ∀ v u, dget st.cameFrom v = some (some u) →
    u ∈ st.closed ∧ ∃ gu w t, dget st.gScores u = some gu ∧
      (v, w, t) ∈ adjOf G u ∧ dget st.gScores v = some (gu + w)
  cf_rank : ∀ v u, dget st.cameFrom v = some (some u) → v ∈ st.closed →
    st.closed.indexOf u < st.closed.indexOf v
  cf_none : ∀ v, dget st.cameFrom v = some none → v = s
  dom_iff : ∀ v, (dget st.cameFrom v).isSome ↔ (dget st.gScores v).isSome
  reach : ∀ v, (dget st.gScores v).isSome → Reachable G s v
  e_closed : e ∉ st.closed
  nodup : st.closed.Nodup

/-- Variant of `AInv` holding while the neighbor loop of an expansion of the
freshly closed node `cur` is still running: the neighborhood-scored field is
weakened to exempt the still `pend`ing neighbors of `cur`. -/
structure AInvE (G : Graph) (s e cur : String) (pend : List (String × ℚ × String))
    (st : AState) : Prop where
  start_g : dget st.gScores s = some 0
  g_nonneg : ∀ v g, dget st.gScores v = some g → 0 ≤ g
  open_g : ∀ tup ∈ st.openSet, (dget st.gScores tup.2.2).isSome
  g_cover : ∀ v, (dget st.gScores v).isSome →
    v ∈ st.closed ∨ ∃ tup ∈ st.openSet, tup.2.2 = v
  closed_g : ∀ v ∈ st.closed, (dget st.gScores v).isSome
  nb_done : ∀ u ∈ st.closed, ∀ nbr ∈ adjOf G u, (u = cur → nbr ∉ pend) →
    (dget st.gScores nbr.1).isSome
  cf_some : ∀ v u, dget st.cameFrom v = some (some u) →
    u ∈ st.closed ∧ ∃ gu w t, dget st.gScores u = some gu ∧
      (v, w, t) ∈ adjOf G u ∧ dget st.gScores v = some (gu + w)
  cf_rank : ∀ v u, dget st.cameFrom v = some (some u) → v ∈ st.closed →
    st.closed.indexOf u < st.closed.indexOf v
  cf_none : ∀ v, dget st.cameFrom v = some none → v = s
  dom_iff : ∀ v, (dget st.cameFrom v).isSome ↔ (dget st.gScores v).isSome
  reach : ∀ v, (dget st.gScores v).isSome → Reachable G s v
  e_closed : e ∉ st.closed
  nodup : st.closed.Nodup
  cur_mem : cur ∈ st.closed

/-- Once the neighbor loop has exhausted its pending list, the plain invariant
is restored. -/
theorem AInvE.toAInv {G : Graph} {s e cur : String} {st : AState}
    (h : AInvE G s e cur [] st) : AInv G s e st where
  start_g := h.start_g
  g_nonneg := h.g_nonneg
  open_g := h.open_g
  g_cover := h.g_cover
  closed_g := h.closed_g
  closed_nb := fun u hu nbr hnbr => h.nb_done u hu nbr hnbr (fun _ => List.not_mem_nil _)
  cf_some := h.cf_some
  cf_rank := h.cf_rank
  cf_none := h.cf_none
  dom_iff := h.dom_iff
  reach := h.reach
  e_closed := h.e_closed
  nodup := h.nodup

/-- The initial loop state of `astar` satisfies the invariant. -/
theorem AInv.initial (G : Graph) (s e : String) :
    AInv G s e ⟨[(0, 0, s)], [], [(s, 0)], [(s, none)]⟩ where
  start_g := by simp [dget]
  g_nonneg := by
    intro v g h
    by_cases hv : s = v
    · simp [dget, hv] at h
      rw [← h]
    · simp [dget, hv] at h
  open_g := by
    intro tup htup
    simp at htup
    subst htup
    simp [dget]
  g_cover := by
    intro v hv
    by_cases hsv : s = v
    · exact Or.inr ⟨(0, 0, s), by simp, hsv⟩
    · simp [dget, hsv] at hv
  closed_g := by intro v hv; simp at hv
  closed_nb := by intro u hu; simp at hu
  cf_some := by
    intro v u h
    by_cases hsv : s = v <;> simp [dget, hsv] at h
  cf_rank := by intro v u _ hv; simp at hv
  cf_none := by
    intro v h
    by_cases hsv : s = v
    · exact hsv.symm
    · simp [dget, hsv] at h
  dom_iff := by
    intro v
    by_cases hsv : s = v <;> simp [dget, hsv]
  reach := by
    intro v hv
    by_cases hsv : s = v
    · exact hsv ▸ Relation.ReflTransGen.refl
    · simp [dget, hsv] at hv
  e_closed := List.not_mem_nil _
  nodup := List.nodup_nil

/-- Popping an already closed node only shrinks the heap; the invariant
survives. -/
theorem skip_preserves {G : Graph} {s e : String} {st : AState}
    {tup : ℚ × ℚ × String} {rest : List (ℚ × ℚ × String)}
    (hinv : AInv G s e st) (hperm : st.openSet.Perm (tup :: rest))
    (hclosed : tup.2.2 ∈ st.closed) :
    AInv G s e { st with openSet := rest } where
  start_g := hinv.start_g
  g_nonneg := hinv.g_nonneg
  open_g := fun t ht => hinv.open_g t (hperm.mem_iff.mpr (List.mem_cons_of_mem _ ht))
  g_cover := by
    intro v hv
    rcases hinv.g_cover v hv with hc | ⟨t, ht, htv⟩
    · exact Or.inl hc
    · rcases List.mem_cons.mp (hperm.mem_iff.mp ht) with ht1 | ht1
      · subst ht1
        exact Or.inl (htv ▸ hclosed)
      · exact Or.inr ⟨t, ht1, htv⟩
  closed_g := hinv.closed_g
  closed_nb := hinv.closed_nb
  cf_some := hinv.cf_some
  cf_rank := hinv.cf_rank
  cf_none := hinv.cf_none
  dom_iff := hinv.dom_iff
  reach := hinv.reach
  e_closed := hinv.e_closed
  nodup := hinv.nodup

/-- If the head of the pending neighbor list already has a `g_score`, it can be
discharged without touching the state. -/
theorem AInvE.weaken {G : Graph} {s e cur : String} {x : String × ℚ × String}
    {pend : List (String × ℚ × String)} {st : AState}
    (hinv : AInvE G s e cur (x :: pend) st) (hx : (dget st.gScores x.1).isSome) :
    AInvE G s e cur pend st where
  start_g := hinv.start_g
  g_nonneg := hinv.g_nonneg
  open_g := hinv.open_g
  g_cover := hinv.g_cover
  closed_g := hinv.closed_g
  nb_done := by
    intro u hu nbr hnbr hcond
    by_cases hnx : nbr = x
    · exact hnx ▸ hx
    · refine hinv.nb_done u hu nbr hnbr fun hu' hmem => ?_
      rcases List.mem_cons.mp hmem with h1 | h1
      · exact hnx h1
      · exact hcond hu' h1
  cf_some := hinv.cf_some
  cf_rank := hinv.cf_rank
  cf_none := hinv.cf_none
  dom_iff := hinv.dom_iff
  reach := hinv.reach
  e_closed := hinv.e_closed
  nodup := hinv.nodup
  cur_mem := hinv.cur_mem

/-- State after an actual relaxation of neighbor `(v, w, t)` of the freshly
closed node `cur`: push the tentative score, record the predecessor, and the
expansion invariant still holds. -/
theorem relaxed_invE {G : Graph} {s e cur : String} {h : String → ℚ}
    {pend : List (String × ℚ × String)} {st : AState} {v : String} {w : ℚ} {t : String}
    (hw : wNonnegB G = true) (hnbr : (v, w, t) ∈ adjOf G cur)
    (hinv : AInvE G s e cur ((v, w, t) :: pend) st)
    (hvc : v ∉ st.closed) (hvcur : v ≠ cur) (hvs : v ≠ s)
    {gur : ℚ} (hgur : dget st.gScores cur = some gur)
    (hwge : (0 : ℚ) ≤ w) (hgur0 : (0 : ℚ) ≤ gur) :
    AInvE G s e cur pend
      { st with gScores := (v, gur + w) :: st.gScores,
                cameFrom := (v, some cur) :: st.cameFrom,
                openSet := st.openSet ++ [(gur + w + h v, gur + w, v)] } := by
  have hmono : ∀ x, (dget st.gScores x).isSome →
      (dget ((v, gur + w) :: st.gScores) x).isSome := by
    intro x hx
    by_cases hvx : v = x <;> simp [dget_cons, hvx, hx]
  refine
    { start_g := ?_, g_nonneg := ?_, open_g := ?_, g_cover := ?_, closed_g := ?_,
      nb_done := ?_, cf_some := ?_, cf_rank := ?_, cf_none := ?_, dom_iff := ?_,
      reach := ?_, e_closed := hinv.e_closed, nodup := hinv.nodup,
      cur_mem := hinv.cur_mem }
  · simpa [dget_cons, hvs] using hinv.start_g
  · intro x g hx
    by_cases hvx : v = x
    · simp only [dget_cons, if_pos hvx, Option.some.injEq] at hx
      rw [← hx]
      linarith
    · simp only [dget_cons, if_neg hvx] at hx
      exact hinv.g_nonneg x g hx
  · intro tup htup
    rcases List.mem_append.mp htup with h1 | h1
    · exact hmono _ (hinv.open_g tup h1)
    · have : tup = (gur + w + h v, gur + w, v) := by simpa using h1
      subst this
      simp [dget_cons]
  · intro x hx
    by_cases hvx : v = x
    · exact Or.inr ⟨(gur + w + h v, gur + w, v), List.mem_append_right _ (by simp), hvx⟩
    · simp only [dget_cons, if_neg hvx] at hx
      rcases hinv.g_cover x hx with hc | ⟨tup, ht, htv⟩
      · exact Or.inl hc
      · exact Or.inr ⟨tup, List.mem_append_left _ ht, htv⟩
  · intro x hxc
    exact hmono _ (hinv.closed_g x hxc)
  · intro u hu nbr' hnbr' hcond
    by_cases hx1 : v = nbr'.1
    · simp [dget_cons, hx1]
    · refine hmono _ (hinv.nb_done u hu nbr' hnbr' fun hu' hmem => ?_)
      rcases List.mem_cons.mp hmem with h1 | h1
      · exact hx1 (by rw [h1])
      · exact hcond hu' h1
  · intro x u' hx
    by_cases hvx : v = x
    · simp only [dget_cons, if_pos hvx, Option.some.injEq] at hx
      rw [← hx]
      refine ⟨hinv.cur_mem, gur, w, t, ?_, ?_, ?_⟩
      · simpa [dget_cons, hvcur] using hgur
      · exact hvx ▸ hnbr
      · simp [dget_cons, hvx]
    · simp only [dget_cons, if_neg hvx] at hx
      obtain ⟨hu'c, gu', w', t', hgu', hedge, hgx⟩ := hinv.cf_some x u' hx
      have hvu' : v ≠ u' := fun heq => hvc (heq ▸ hu'c)
      exact ⟨hu'c, gu', w', t',
        by simpa [dget_cons, hvu'] using hgu', hedge,
        by simpa [dget_cons, hvx] using hgx⟩
  · intro x u' hx hxc
    by_cases hvx : v = x
    · exact absurd (hvx ▸ hxc) hvc
    · simp only [dget_cons, if_neg hvx] at hx
      exact hinv.cf_rank x u' hx hxc
  · intro x hx
    by_cases hvx : v = x
    · simp [dget_cons, hvx] at hx
    · simp only [dget_cons, if_neg hvx] at hx
      exact hinv.cf_none x hx
  · intro x
    by_cases hvx : v = x
    · simp [dget_cons, hvx]
    · simp only [dget_cons, if_neg hvx]
      exact hinv.dom_iff x
  · intro x hx
    by_cases hvx : v = x
    · subst hvx
      exact (hinv.reach cur (by rw [hgur]; rfl)).tail ⟨w, t, hnbr⟩
    · simp only [dget_cons, if_neg hvx] at hx
      exact hinv.reach x hx

/-- One neighbor-loop iteration preserves the expansion invariant, moving the
processed neighbor out of the pending list. -/
theorem relaxOne_preserves {G : Graph} {s e cur : String} {h : String → ℚ}
    (hw : wNonnegB G = true) {pend : List (String × ℚ × String)} {st : AState}
    {nbr : String × ℚ × String} (hnbr : nbr ∈ adjOf G cur)
    (hinv : AInvE G s e cur (nbr :: pend) st) :
    AInvE G s e cur pend (relaxOne h cur st nbr) := by
  obtain ⟨v, w, t⟩ := nbr
  rw [relaxOne]
  dsimp only
  by_cases hvc : v ∈ st.closed
  · rw [if_pos hvc]
    exact hinv.weaken (hinv.closed_g v hvc)
  · rw [if_neg hvc]
    have hvcur : v ≠ cur := fun heq => hvc (heq ▸ hinv.cur_mem)
    obtain ⟨gur, hgur⟩ := Option.isSome_iff_exists.mp (hinv.closed_g cur hinv.cur_mem)
    have hgetD : (dget st.gScores cur).getD 0 = gur := by rw [hgur]; rfl
    have hwge : (0 : ℚ) ≤ w := wNonnegB_spec hw hnbr
    have hgur0 : (0 : ℚ) ≤ gur := hinv.g_nonneg cur gur hgur
    -- whether the relaxation fires
    rcases hdo : dget st.gScores v with _ | gv
    · -- no g_score yet: relax unconditionally
      dsimp only
      rw [if_pos rfl, hgetD]
      have hvs : v ≠ s := by
        intro heq
        rw [heq, hinv.start_g] at hdo
        cases hdo
      exact relaxed_invE hw hnbr hinv hvc hvcur hvs hgur hwge hgur0
    · dsimp only
      rw [hgetD]
      by_cases hlt : gur + w < gv
      · rw [decide_eq_true hlt, if_pos rfl]
        have hvs : v ≠ s := by
          intro heq
          rw [heq, hinv.start_g] at hdo
          cases hdo
          exact absurd hlt (not_lt.mpr (by linarith))
        exact relaxed_invE hw hnbr hinv hvc hvcur hvs hgur hwge hgur0
      · rw [decide_eq_false hlt, if_neg Bool.false_ne_true]
        exact hinv.weaken (by rw [hdo]; rfl)

/-- The whole neighbor loop preserves the expansion invariant. -/
theorem expandFold_preserves {G : Graph} {s e cur : String} {h : String → ℚ}
    (hw : wNonnegB G = true) :
    ∀ (pend : List (String × ℚ × String)) (st : AState),
      (∀ x ∈ pend, x ∈ adjOf G cur) → AInvE G s e cur pend st →
      AInvE G s e cur [] (pend.foldl (relaxOne h cur) st) := by
  intro pend
  induction pend with
  | nil => exact fun st _ hinv => hinv
  | cons x pend ih =>
    intro st hsub hinv
    rw [List.foldl_cons]
    exact ih _ (fun y hy => hsub y (List.mem_cons_of_mem _ hy))
      (relaxOne_preserves hw (hsub x (List.mem_cons_self _ _)) hinv)

/-- Expanding a freshly popped, previously unclosed node other than the end
node preserves the loop invariant. -/
theorem expand_preserves {G : Graph} {s e : String} {h : String → ℚ}
    (hw : wNonnegB G = true) {st : AState} {tup : ℚ × ℚ × String}
    {rest : List (ℚ × ℚ × String)}
    (hinv : AInv G s e st) (hperm : st.openSet.Perm (tup :: rest))
    (hnc : tup.2.2 ∉ st.closed) (hne : tup.2.2 ≠ e) :
    AInv G s e (expand G h tup.2.2 { st with openSet := rest }) := by
  set cur := tup.2.2 with hcur
  have hmem : tup ∈ st.openSet := hperm.mem_iff.mpr (List.mem_cons_self _ _)
  have hcur_g : (dget st.gScores cur).isSome := hinv.open_g tup hmem
  have hinvE : AInvE G s e cur (adjOf G cur)
      { st with openSet := rest, closed := st.closed ++ [cur] } := by
    refine
      { start_g := hinv.start_g, g_nonneg := hinv.g_nonneg,
        open_g := ?_, g_cover := ?_, closed_g := ?_, nb_done := ?_,
        cf_some := ?_, cf_rank := ?_, cf_none := hinv.cf_none,
        dom_iff := hinv.dom_iff, reach := hinv.reach,
        e_closed := ?_, nodup := ?_, cur_mem := ?_ }
    · exact fun t ht => hinv.open_g t (hperm.mem_iff.mpr (List.mem_cons_of_mem _ ht))
    · intro x hx
      rcases hinv.g_cover x hx with hc | ⟨t, ht, htv⟩
      · exact Or.inl (List.mem_append_left _ hc)
      · rcases List.mem_cons.mp (hperm.mem_iff.mp ht) with ht1 | ht1
        · exact Or.inl (List.mem_append_right _ (by simp [← htv, ht1]))
        · exact Or.inr ⟨t, ht1, htv⟩
    · intro x hxc
      rcases List.mem_append.mp hxc with h1 | h1
      · exact hinv.closed_g x h1
      · have : x = cur := by simpa using h1
        exact this ▸ hcur_g
    · intro u hu nbr hnbr hcond
      rcases List.mem_append.mp hu with h1 | h1
      · exact hinv.closed_nb u h1 nbr hnbr
      · have hucur : u = cur := by simpa using h1
        subst hucur
        exact absurd hnbr (hcond rfl)
    · intro x u' hx
      obtain ⟨hu'c, rest'⟩ := hinv.cf_some x u' hx
      exact ⟨List.mem_append_left _ hu'c, rest'⟩
    · intro x u' hx hxc
      obtain ⟨hu'c, -⟩ := hinv.cf_some x u' hx
      rcases List.mem_append.mp hxc with h1 | h1
      · rw [List.indexOf_append_of_mem hu'c, List.indexOf_append_of_mem h1]
        exact hinv.cf_rank x u' hx h1
      · have hxcur : x = cur := by simpa using h1
        subst hxcur
        rw [List.indexOf_append_of_mem hu'c, List.indexOf_append_of_not_mem hnc]
        simp only [List.indexOf_cons_self, Nat.add_zero]
        exact List.indexOf_lt_length.mpr hu'c
    · simp only [List.mem_append, List.mem_singleton, not_or]
      exact ⟨hinv.e_closed, fun heq => hne heq.symm⟩
    · simp [List.nodup_append, hinv.nodup, hnc]
    · exact List.mem_append_right _ (by simp)
  rw [expand]
  exact (expandFold_preserves hw _ _ (fun x hx => hx) hinvE).toAInv

/-! ## Termination measure for the loop fuel -/

/-- Total adjacency-list length of the graph entries whose key is not yet
closed. -/
def remSum (G : Graph) (closed : List String) : Nat :=
  ((G.filter fun p => !(decide (p.1 ∈ closed))).map fun p => p.2.length).sum

/-- Loop measure: heap size plus unclosed adjacency mass; it strictly drops at
every iteration. -/
def Phi (G : Graph) (st : AState) : Nat := st.openSet.length + remSum G st.closed

theorem remSum_nil (G : Graph) : remSum G [] = degSum G := by
  simp [remSum, degSum]

theorem remSum_cons (k : String) (l : List (String × ℚ × String)) (t : Graph)
    (c : List String) :
    remSum ((k, l) :: t) c = (if k ∈ c then 0 else l.length) + remSum t c := by
  by_cases h : k ∈ c <;> simp [remSum, List.filter_cons, h]

theorem remSum_mono (G : Graph) (c : List String) (u : String) :
    remSum G (c ++ [u]) ≤ remSum G c := by
  induction G with
  | nil => simp [remSum]
  | cons p t ih =>
    obtain ⟨k, l⟩ := p
    rw [remSum_cons, remSum_cons]
    by_cases hk : k ∈ c
    · have hk' : k ∈ c ++ [u] := List.mem_append_left _ hk
      simp only [hk, hk', if_true]
      omega
    · by_cases hk' : k ∈ c ++ [u] <;> simp only [hk, hk', if_true, if_false] <;> omega

/-- Closing a node removes at least its full adjacency list from the unclosed
mass. -/
theorem remSum_close (G : Graph) (c : List String) (u : String) (hu : u ∉ c) :
    remSum G (c ++ [u]) + (adjOf G u).length ≤ remSum G c := by
  induction G with
  | nil => simp [remSum, adjOf, dget]
  | cons p t ih =>
    obtain ⟨k, l⟩ := p
    rw [remSum_cons, remSum_cons]
    by_cases hk : k = u
    · subst hk
      have hadj : adjOf ((k, l) :: t) k = l := by simp [adjOf, dget]
      rw [hadj]
      have hin : k ∈ c ++ [k] := List.mem_append_right _ (by simp)
      have hm := remSum_mono t c k
      simp only [hin, hu, if_true, if_false]
      omega
    · have hadj : adjOf ((k, l) :: t) u = adjOf t u := by simp [adjOf, dget, hk]
      rw [hadj]
      have hiff : (k ∈ c ++ [u]) ↔ k ∈ c := by simp [hk]
      by_cases hkc : k ∈ c
      · simp only [hkc, hiff.mpr hkc, if_true]
        omega
      · simp only [hkc, hiff, if_false]
        omega

/-- One neighbor iteration pushes at most one tuple and never touches the
closed list. -/
theorem relaxOne_bound {h : String → ℚ} {cur : String} (st : AState)
    (nbr : String × ℚ × String) :
    (relaxOne h cur st nbr).openSet.length ≤ st.openSet.length + 1 ∧
      (relaxOne h cur st nbr).closed = st.closed := by
  obtain ⟨v, w, t⟩ := nbr
  rw [relaxOne]
  dsimp only
  by_cases hvc : v ∈ st.closed
  · rw [if_pos hvc]
    exact ⟨Nat.le_succ _, rfl⟩
  · rw [if_neg hvc]
    rcases dget st.gScores v with _ | gv
    · dsimp only
      rw [if_pos rfl]
      simp
    · dsimp only
      by_cases hd : (decide ((dget st.gScores cur).getD 0 + w < gv)) = true
      · rw [if_pos hd]
        simp
      · rw [if_neg hd]
        exact ⟨Nat.le_succ _, rfl⟩

/-- The whole neighbor loop pushes at most one tuple per neighbor and leaves
the closed list alone. -/
theorem foldRelax_bound {h : String → ℚ} {cur : String} :
    ∀ (pend : List (String × ℚ × String)) (st : AState),
      (pend.foldl (relaxOne h cur) st).openSet.length ≤
          st.openSet.length + pend.length ∧
        (pend.foldl (relaxOne h cur) st).closed = st.closed := by
  intro pend
  induction pend with
  | nil => exact fun st => ⟨Nat.le_refl _, rfl⟩
  | cons x pend ih =>
    intro st
    rw [List.foldl_cons]
    obtain ⟨h1, h2⟩ := ih (relaxOne h cur st x)
    obtain ⟨h3, h4⟩ := relaxOne_bound st x
    constructor
    · calc (List.foldl (relaxOne h cur) (relaxOne h cur st x) pend).openSet.length
          ≤ (relaxOne h cur st x).openSet.length + pend.length := h1
        _ ≤ st.openSet.length + 1 + pend.length := Nat.add_le_add_right h3 _
        _ = st.openSet.length + (x :: pend).length := by simp [List.length_cons]; omega
    · rw [h2, h4]

/-- Skipping a closed pop strictly decreases the measure. -/
theorem Phi_skip {G : Graph} {st : AState} {tup : ℚ × ℚ × String}
    {rest : List (ℚ × ℚ × String)} (hperm : st.openSet.Perm (tup :: rest)) :
    Phi G { st with openSet := rest } < Phi G st := by
  have hlen := hperm.length_eq
  simp only [Phi, List.length_cons] at *
  omega

/-- Expanding a fresh pop strictly decreases the measure. -/
theorem Phi_expand {G : Graph} {h : String → ℚ} {st : AState}
    {tup : ℚ × ℚ × String} {rest : List (ℚ × ℚ × String)}
    (hperm : st.openSet.Perm (tup :: rest)) (hnc : tup.2.2 ∉ st.closed) :
    Phi G (expand G h tup.2.2 { st with openSet := rest }) < Phi G st := by
  have hlen := hperm.length_eq
  rw [expand]
  obtain ⟨hle, hcl⟩ := @foldRelax_bound h tup.2.2 (adjOf G tup.2.2)
    { st with openSet := rest, closed := st.closed ++ [tup.2.2] }
  have hclose := remSum_close G st.closed tup.2.2 hnc
  simp only [Phi, hcl, List.length_cons] at *
  omega

/-! ## Path reconstruction correctness -/

/-- Reconstruction only prepends to its accumulator, and with fuel available it
prepends at least the starting node. -/
theorem reconstruct_acc (cF : List (String × Option String)) :
    ∀ (fuel : Nat) (node : String) (acc : List String),
      ∃ pre, reconstruct cF fuel node acc = pre ++ acc ∧ (0 < fuel → pre ≠ []) := by
  intro fuel
  induction fuel with
  | zero => exact fun node acc => ⟨[], rfl, fun h => absurd h (by simp)⟩
  | succ fuel ih =>
    intro node acc
    rw [reconstruct]
    rcases hcf : (dget cF node).getD none with _ | nxt
    · exact ⟨[node], rfl, fun _ => by simp⟩
    · obtain ⟨pre, hpre, -⟩ := ih nxt (node :: acc)
      refine ⟨pre ++ [node], ?_, fun _ => by simp⟩
      dsimp only
      rw [hpre, List.append_assoc, List.singleton_append]

/-- The closing order contains no more nodes than `came_from` has entries
(every closed node has a `came_from` binding, and the order has no repeats). -/
theorem closed_len_le {G : Graph} {s e : String} {st : AState} (hinv : AInv G s e st) :
    st.closed.length ≤ st.cameFrom.length := by
  have hsub : st.closed.toFinset ⊆ (st.cameFrom.map Prod.fst).toFinset := by
    intro v hv
    rw [List.mem_toFinset] at hv ⊢
    exact dget_isSome_mem_keys ((hinv.dom_iff v).mpr (hinv.closed_g v hv))
  calc st.closed.length = st.closed.toFinset.card :=
        (List.toFinset_card_of_nodup hinv.nodup).symm
    _ ≤ (st.cameFrom.map Prod.fst).toFinset.card := Finset.card_le_card hsub
    _ ≤ (st.cameFrom.map Prod.fst).length := List.toFinset_card_le _
    _ = st.cameFrom.length := List.length_map _ _

/-- Walking `came_from` from a closed node with enough fuel yields a valid
path from the start to that node whose cost is its recorded `g_score`. -/
theorem reconstruct_valid {G : Graph} {s e : String} {st : AState}
    (hinv : AInv G s e st) :
    ∀ (n : Nat) (u : String) (gu : ℚ), u ∈ st.closed → st.closed.indexOf u < n →
      dget st.gScores u = some gu →
      ∀ (fuel : Nat) (acc : List String), st.closed.indexOf u + 1 ≤ fuel →
        ∃ p, reconstruct st.cameFrom fuel u acc = p ++ acc ∧ ValidPath G s u p gu := by
  intro n
  induction n with
  | zero => exact fun u gu _ h => absurd h (Nat.not_lt_zero _)
  | succ n ih =>
    intro u gu huc hun hgu fuel acc hfuel
    obtain ⟨fuel, rfl⟩ : ∃ f, fuel = f + 1 := by
      cases fuel with
      | zero => omega
      | succ f => exact ⟨f, rfl⟩
    have hcf : (dget st.cameFrom u).isSome :=
      (hinv.dom_iff u).mpr (by rw [hgu]; rfl)
    obtain ⟨val, hval⟩ := Option.isSome_iff_exists.mp hcf
    rcases val with _ | u'
    · -- came_from[u] is None: u is the start
      have hus : u = s := hinv.cf_none u hval
      subst hus
      have hgu0 : gu = 0 := by
        rw [hinv.start_g] at hgu
        cases hgu
        rfl
      subst hgu0
      refine ⟨[u], ?_, ValidPath.single u⟩
      rw [reconstruct, hval]
      rfl
    · -- came_from[u] points to an earlier closed node u'
      obtain ⟨hu'c, gu', w, t, hgu', hedge, hgw⟩ := hinv.cf_some u u' hval
      have hgueq : gu = gu' + w := by
        rw [hgw] at hgu
        cases hgu
        rfl
      have hrank : st.closed.indexOf u' < st.closed.indexOf u :=
        hinv.cf_rank u u' hval huc
      obtain ⟨p', hp', hvp'⟩ := ih u' gu' hu'c (by omega) hgu' fuel (u :: acc) (by omega)
      refine ⟨p' ++ [u], ?_, ?_⟩
      · rw [reconstruct, hval]
        dsimp only [Option.getD]
        rw [hp', List.append_assoc, List.singleton_append]
      · exact hgueq ▸ hvp'.snoc hedge

/-- When the end node is popped, the reconstruction walk returns a valid path
from start to end costing exactly the end node's recorded `g_score`. -/
theorem reconstruct_end {G : Graph} {s e : String} {st : AState}
    (hinv : AInv G s e st) (hne : s ≠ e) (hesome : (dget st.gScores e).isSome) :
    ∃ p ge, dget st.gScores e = some ge ∧
      reconstruct st.cameFrom (st.cameFrom.length + 1) e [] = p ∧
      ValidPath G s e p ge := by
  obtain ⟨ge, hge⟩ := Option.isSome_iff_exists.mp hesome
  have hcf : (dget st.cameFrom e).isSome := (hinv.dom_iff e).mpr hesome
  obtain ⟨val, hval⟩ := Option.isSome_iff_exists.mp hcf
  rcases val with _ | u1
  · exact absurd (hinv.cf_none e hval) (Ne.symm hne)
  · obtain ⟨hu1c, gu1, w, t, hgu1, hedge, hgw⟩ := hinv.cf_some e u1 hval
    have hrank : st.closed.indexOf u1 < st.closed.length :=
      List.indexOf_lt_length.mpr hu1c
    have hlen := closed_len_le hinv
    obtain ⟨p', hp', hvp'⟩ := reconstruct_valid hinv (st.closed.indexOf u1 + 1) u1 gu1
      hu1c (Nat.lt_succ_self _) hgu1 st.cameFrom.length [e] (by omega)
    have hgeval : ge = gu1 + w := by
      rw [hgw] at hge
      cases hge
      rfl
    refine ⟨p' ++ [e], ge, hge, ?_, ?_⟩
    · rw [reconstruct, hval]
      dsimp only [Option.getD]
      rw [hp']
    · exact hgeval ▸ hvp'.snoc hedge

/-- Master specification of the `astar` loop: on exhaustion with sufficient
fuel the end node is unreachable; any nonempty returned path is a valid
start-to-end path costing the returned distance; and the distance is infinite
exactly when the path is empty. -/
theorem astarLoop_spec {G : Graph} {h : String → ℚ} {s e : String}
    (hw : wNonnegB G = true) (hne : s ≠ e) :
    ∀ (fuel : Nat) (st : AState), AInv G s e st →
      ((astarLoop G h e fuel st = (none, []) → Phi G st < fuel → ¬ Reachable G s e) ∧
        (∀ d p, astarLoop G h e fuel st = (d, p) → p ≠ [] →
          ∃ dv, d = some dv ∧ ValidPath G s e p dv) ∧
        (∀ d p, astarLoop G h e fuel st = (d, p) → (d = none ↔ p = []))) := by
  intro fuel
  induction fuel with
  | zero =>
    intro st _
    refine ⟨fun _ hq => absurd hq (Nat.not_lt_zero _), ?_, ?_⟩
    · intro d p hdp hp
      rw [astarLoop] at hdp
      injection hdp with h1 h2
      exact absurd h2.symm hp
    · intro d p hdp
      rw [astarLoop] at hdp
      injection hdp with h1 h2
      rw [← h1, ← h2]
      simp
  | succ fuel ih =>
    intro st hinv
    rcases hpop : popMin st.openSet with _ | ⟨tup, rest⟩
    · -- heap exhausted: all reachable nodes are closed, and e never is
      have hopen : st.openSet = [] := popMin_eq_none.mp hpop
      have hres : astarLoop G h e (fuel + 1) st = (none, []) := by
        rw [astarLoop, hpop]
      have hclosure : ∀ v, Reachable G s v → v ∈ st.closed := by
        intro v hv
        induction hv with
        | refl =>
          rcases hinv.g_cover s (by rw [hinv.start_g]; rfl) with hc | ⟨tp, htp, -⟩
          · exact hc
          · rw [hopen] at htp
            cases htp
        | tail hsteps hadj ihv =>
          rename_i u v'
          obtain ⟨w, t, hmem⟩ := hadj
          have hsome : (dget st.gScores v').isSome :=
            hinv.closed_nb u ihv (v', w, t) hmem
          rcases hinv.g_cover v' hsome with hc | ⟨tp, htp, -⟩
          · exact hc
          · rw [hopen] at htp
            cases htp
      refine ⟨fun _ _ hreach => hinv.e_closed (hclosure e hreach), ?_, ?_⟩
      · intro d p hdp hp
        rw [hres] at hdp
        injection hdp with h1 h2
        exact absurd h2.symm hp
      · intro d p hdp
        rw [hres] at hdp
        injection hdp with h1 h2
        rw [← h1, ← h2]
        simp
    · have hperm := popMin_perm hpop
      by_cases hce : tup.2.2 = e
      · -- popped the end node: finite result with a reconstructed path
        have hesome : (dget st.gScores e).isSome := by
          have := hinv.open_g tup (hperm.mem_iff.mpr (List.mem_cons_self _ _))
          rwa [hce] at this
        obtain ⟨p0, ge, hge, hrec, hvp⟩ := reconstruct_end hinv hne hesome
        have hp0 : p0 ≠ [] := by
          obtain ⟨tl, htl⟩ := hvp.shape
          rw [htl]
          simp
        have hres : astarLoop G h e (fuel + 1) st = (some ge, p0) := by
          rw [astarLoop, hpop]
          dsimp only
          rw [if_pos hce, hge, hce, hrec]
        refine ⟨?_, ?_, ?_⟩
        · intro habs _
          rw [hres] at habs
          injection habs with h1 _
          cases h1
        · intro d p hdp _
          rw [hres] at hdp
          injection hdp with h1 h2
          rw [← h1, ← h2]
          exact ⟨ge, rfl, hvp⟩
        · intro d p hdp
          rw [hres] at hdp
          injection hdp with h1 h2
          rw [← h1, ← h2]
          simp [hp0]
      · by_cases hcc : tup.2.2 ∈ st.closed
        · -- stale heap entry: drop it
          have hres : astarLoop G h e (fuel + 1) st =
              astarLoop G h e fuel { st with openSet := rest } := by
            rw [astarLoop, hpop]
            dsimp only
            rw [if_neg hce, if_pos hcc]
          have hinv' := skip_preserves hinv hperm hcc
          obtain ⟨c1, c2, c3⟩ := ih _ hinv'
          refine ⟨?_, ?_, ?_⟩
          · intro hdp hq
            rw [hres] at hdp
            exact c1 hdp (lt_of_lt_of_le (Phi_skip hperm) (Nat.lt_succ_iff.mp hq))
          · intro d p hdp hp
            rw [hres] at hdp
            exact c2 d p hdp hp
          · intro d p hdp
            rw [hres] at hdp
            exact c3 d p hdp
        · -- fresh node: close and expand it
          have hres : astarLoop G h e (fuel + 1) st =
              astarLoop G h e fuel (expand G h tup.2.2 { st with openSet := rest }) := by
            rw [astarLoop, hpop]
            dsimp only
            rw [if_neg hce, if_neg hcc]
          have hinv' := @expand_preserves G s e h hw st tup rest hinv hperm hcc hce
          obtain ⟨c1, c2, c3⟩ := ih _ hinv'
          refine ⟨?_, ?_, ?_⟩
          · intro hdp hq
            rw [hres] at hdp
            exact c1 hdp (lt_of_lt_of_le (Phi_expand hperm hcc) (Nat.lt_succ_iff.mp hq))
          · intro d p hdp hp
            rw [hres] at hdp
            exact c2 d p hdp hp
          · intro d p hdp
            rw [hres] at hdp
            exact c3 d p hdp

/-- The measure of the initial loop state is below the fuel `astar` passes. -/
theorem Phi_initial (G : Graph) (s : String) :
    Phi G ⟨[(0, 0, s)], [], [(s, 0)], [(s, none)]⟩ < degSum G + 2 := by
  simp only [Phi, remSum_nil, List.length_cons, List.length_nil]
  omega

/-- C1: for connected endpoints that are both graph keys, `astar` returns a
finite distance together with a path from the start to the end whose
consecutive nodes are joined by stored edges and whose traversed edge weights
sum to exactly the returned total distance. -/
theorem c1_astar_returns_consistent_path
    (svc : GraphService) (sqrtFn : ℚ → ℚ) (a b : String)
    (hw : wNonnegB svc.graph = true)
    (ha : (dget svc.graph a).isSome = true) (hb : (dget svc.graph b).isSome = true)
    (hconn : Reachable svc.graph a b) :
    ∃ d p, svc.astar sqrtFn a b = (some d, p) ∧ ValidPath svc.graph a b p d ∧
      p.head? = some a ∧ p.getLast? = some b := by
  rcases hga : dget svc.graph a with _ | va
  · rw [hga] at ha
    cases ha
  rcases hgb : dget svc.graph b with _ | vb
  · rw [hgb] at hb
    cases hb
  rw [GraphService.astar, hga, hgb]
  simp only [Option.isNone_some, Bool.or_self]
  rw [if_neg Bool.false_ne_true]
  by_cases hab : a = b
  · subst hab
    rw [if_pos rfl]
    exact ⟨0, [a], rfl, ValidPath.single a, rfl, rfl⟩
  · rw [if_neg hab]
    obtain ⟨c1, c2, c3⟩ := astarLoop_spec hw hab (degSum svc.graph + 2)
      ⟨[(0, 0, a)], [], [(a, 0)], [(a, none)]⟩ (AInv.initial svc.graph a b)
    rcases hres : astarLoop svc.graph
        (fun v => GraphService.heuristic sqrtFn svc.nodes_info v b) b
        (degSum svc.graph + 2) ⟨[(0, 0, a)], [], [(a, 0)], [(a, none)]⟩ with ⟨d, p⟩
    by_cases hp : p = []
    · exfalso
      have hd : d = none := (c3 d p hres).mpr hp
      exact c1 (by rw [hres, hd, hp]) (Phi_initial svc.graph a) hconn
    · obtain ⟨dv, rfl, hvp⟩ := c2 d p hres hp
      exact ⟨dv, p, rfl, hvp, hvp.head_eq, hvp.last_eq⟩

/-- C2: `astar` answers exactly `(inf, [])` when either endpoint is not a
graph key; when both are keys it returns a finite distance and nonempty path
precisely when the end is reachable from the start along stored edges — for
the symmetric adjacency structures this service builds (hypothesis `hsym`),
reachability is exactly membership in the start's connected component — and
when the end is not reachable, frontier exhaustion makes the result exactly
`(inf, [])` again. -/
theorem c2_astar_connectivity
    (svc : GraphService) (sqrtFn : ℚ → ℚ) (a b : String)
    (hw : wNonnegB svc.graph = true) (hsym : symmB svc.graph = true) :
    (((dget svc.graph a).isSome = false ∨ (dget svc.graph b).isSome = false) →
        svc.astar sqrtFn a b = (none, [])) ∧
      ((dget svc.graph a).isSome = true → (dget svc.graph b).isSome = true →
        ((((svc.astar sqrtFn a b).1 ≠ none ∧ (svc.astar sqrtFn a b).2 ≠ []) ↔
            Reachable svc.graph a b) ∧
          (¬ Reachable svc.graph a b → svc.astar sqrtFn a b = (none, [])))) := by
  constructor
  · intro hmiss
    rw [GraphService.astar, if_pos]
    rcases hmiss with hmiss | hmiss
    · rcases hga : dget svc.graph a with _ | va
      · simp
      · rw [hga] at hmiss
        exact absurd hmiss (by simp)
    · rcases hgb : dget svc.graph b with _ | vb
      · simp
      · rw [hgb] at hmiss
        exact absurd hmiss (by simp)
  · intro ha hb
    rcases hga : dget svc.graph a with _ | va
    · rw [hga] at ha
      cases ha
    rcases hgb : dget svc.graph b with _ | vb
    · rw [hgb] at hb
      cases hb
    rw [GraphService.astar, hga, hgb]
    simp only [Option.isNone_some, Bool.or_self]
    rw [if_neg Bool.false_ne_true]
    by_cases hab : a = b
    · subst hab
      rw [if_pos rfl]
      refine ⟨⟨fun _ => Relation.ReflTransGen.refl, fun _ => by constructor <;> simp⟩,
        fun habs => absurd Relation.ReflTransGen.refl habs⟩
    · rw [if_neg hab]
      obtain ⟨c1, c2, c3⟩ := astarLoop_spec hw hab (degSum svc.graph + 2)
        ⟨[(0, 0, a)], [], [(a, 0)], [(a, none)]⟩ (AInv.initial svc.graph a b)
      rcases hres : astarLoop svc.graph
          (fun v => GraphService.heuristic sqrtFn svc.nodes_info v b) b
          (degSum svc.graph + 2) ⟨[(0, 0, a)], [], [(a, 0)], [(a, none)]⟩ with ⟨d, p⟩
      refine ⟨⟨?_, ?_⟩, ?_⟩
      · intro hand
        obtain ⟨hd, hp⟩ := hand
        obtain ⟨dv, -, hvp⟩ := c2 d p hres hp
        exact hvp.reachable
      · intro hconn
        by_cases hp : p = []
        · exfalso
          have hd : d = none := (c3 d p hres).mpr hp
          exact c1 (by rw [hres, hd, hp]) (Phi_initial svc.graph a) hconn
        · obtain ⟨dv, hdv, -⟩ := c2 d p hres hp
          exact ⟨by simp [hdv], hp⟩
      · intro hnr
        by_cases hp : p = []
        · have hd : d = none := (c3 d p hres).mpr hp
          rw [hd, hp]
        · obtain ⟨dv, -, hvp⟩ := c2 d p hres hp
          exact absurd hvp.reachable hnr

/-! ## Node search (`GraphService.search_nodes`) -/

/-- One-character lower-casing (Python `str.lower`), modelled on the alphabet
exercised below: ASCII capitals map to the corresponding small letters and
every other character — including 'ß', which Python also leaves fixed under
`lower` — is unchanged. -/
def charLower (c : Char) : Char :=
  if 'A' ≤ c && c ≤ 'Z' then Char.ofNat (c.toNat + 32) else c

/-- One-character upper-casing (Python `str.upper`), which can expand a
single character into several: ASCII small letters map to the corresponding
capitals, and 'ß' expands to the two-character "SS" (its Unicode full
uppercase mapping, which Python applies); other characters are unchanged. -/
def charUpper (c : Char) : List Char :=
  if 'a' ≤ c && c ≤ 'z' then [Char.ofNat (c.toNat - 32)]
  else if c = 'ß' then ['S', 'S']
  else [c]

/-- String lower-casing, `s.lower()`. -/
def strLower (s : String) : String := ⟨s.data.map charLower⟩

/-- String upper-casing, `s.upper()`: the concatenation of the per-character
(possibly multi-character) uppercase mappings. -/
def strUpper (s : String) : String := ⟨s.data.flatMap charUpper⟩

/-- Every character of the string lies in the ASCII range. -/
def asciiStr (s : String) : Bool := s.data.all fun c => c.toNat < 128

/-- Whether `sub` starts the character list `hay`. -/
def charsStartWith : List Char → List Char → Bool
  | _, [] => true
  | [], _ :: _ => false
  | a :: hay, b :: sub => a == b && charsStartWith hay sub

/-- Substring test on character lists: Python's `sub in hay`. -/
def charsContain : List Char → List Char → Bool
  | [], sub => sub.isEmpty
  | a :: hay, sub => charsStartWith (a :: hay) sub || charsContain hay sub

/-- Python's `sub in hay` on strings. -/
def strContains (hay sub : String) : Bool := charsContain hay.data sub.data

namespace GraphService

/-- Embeds `GraphService.search_nodes`: lower the keyword once, keep the node
infos (in insertion order) whose id, name, or detail (`None` treated as the
empty string) contains it case-insensitively. -/
def search_nodes (svc : GraphService) (keyword : String) : List NodeInfo :=
  let keyword_lower := strLower keyword
  (svc.nodes_info.filter fun entry =>
    strContains (strLower entry.1) keyword_lower ||
      strContains (strLower entry.2.name) keyword_lower ||
        strContains (strLower (entry.2.detail.getD "")) keyword_lower).map Prod.snd

/-- Embeds `GraphService.get_all_nodes`. -/
def get_all_nodes (svc : GraphService) : List NodeInfo :=
  svc.nodes_info.map Prod.snd

/-- Embeds `GraphService.get_nodes_by_floor`. -/
def get_nodes_by_floor (svc : GraphService) (floor : Int) : List NodeInfo :=
  (svc.nodes_info.map Prod.snd).filter fun info => info.floor = floor

end GraphService

/-- Round trip for ASCII code points. -/
theorem char_toNat_ofNat {n : Nat} (h : n < 128) : (Char.ofNat n).toNat = n := by
  unfold Char.ofNat
  rw [dif_pos]
  · rfl
  · left
    omega

/-- For an ASCII character, lower-casing the uppercase expansion gives back
exactly the plain lower-cased character. -/
theorem charUpper_map_charLower {c : Char} (h : c.toNat < 128) :
    (charUpper c).map charLower = [charLower c] := by
  rw [charUpper]
  by_cases hc : ('a' ≤ c && c ≤ 'z') = true
  · have helt : charLower (Char.ofNat (c.toNat - 32)) = charLower c := by
      simp only [Bool.and_eq_true, decide_eq_true_eq] at hc
      have h97 : 97 ≤ c.toNat := hc.1
      have h122 : c.toNat ≤ 122 := hc.2
      have hdto : (Char.ofNat (c.toNat - 32)).toNat = c.toNat - 32 :=
        char_toNat_ofNat (by omega)
      rw [charLower, charLower]
      rw [if_pos, if_neg]
      · rw [hdto]
        have harith : c.toNat - 32 + 32 = c.toNat := by omega
        rw [harith, Char.ofNat_toNat]
      · intro habs
        simp only [Bool.and_eq_true, decide_eq_true_eq] at habs
        have : c.toNat ≤ 90 := habs.2
        omega
      · simp only [Bool.and_eq_true, decide_eq_true_eq]
        refine ⟨?_, ?_⟩
        · show 65 ≤ (Char.ofNat (c.toNat - 32)).toNat
          rw [hdto]
          omega
        · show (Char.ofNat (c.toNat - 32)).toNat ≤ 90
          rw [hdto]
          omega
    rw [if_pos hc, List.map_cons, List.map_nil, helt]
  · rw [if_neg hc, if_neg]
    · rfl
    · intro habs
      subst habs
      exact absurd h (by decide)

/-- A lower-cased character is never an ASCII capital. -/
theorem charLower_not_upper (c : Char) :
    ¬ (('A' ≤ charLower c && charLower c ≤ 'Z') = true) := by
  rw [charLower]
  by_cases hc : ('A' ≤ c && c ≤ 'Z') = true
  · rw [if_pos hc]
    simp only [Bool.and_eq_true, decide_eq_true_eq] at hc ⊢
    have h65 : 65 ≤ c.toNat := hc.1
    have h90 : c.toNat ≤ 90 := hc.2
    have hdto : (Char.ofNat (c.toNat + 32)).toNat = c.toNat + 32 :=
      char_toNat_ofNat (by omega)
    rintro ⟨-, hb⟩
    have hle : (Char.ofNat (c.toNat + 32)).toNat ≤ 90 := hb
    omega
  · rw [if_neg hc]
    exact hc

/-- Characters outside the capital range are fixed by lower-casing. -/
theorem charLower_eq_self {x : Char} (h : ¬ (('A' ≤ x && x ≤ 'Z') = true)) :
    charLower x = x := by
  rw [charLower, if_neg h]

theorem charLower_charLower (c : Char) : charLower (charLower c) = charLower c :=
  charLower_eq_self (charLower_not_upper c)

/-- For ASCII strings, lower-casing the upper-cased string gives the plain
lower-cased string.  (Outside ASCII this fails: `strLower (strUpper "ß")` is
`"ss"`, not `"ß"`.) -/
theorem strLower_strUpper_ascii {s : String} (h : asciiStr s = true) :
    strLower (strUpper s) = strLower s := by
  have key : ∀ l : List Char, (∀ c ∈ l, c.toNat < 128) →
      (l.flatMap charUpper).map charLower = l.map charLower := by
    intro l
    induction l with
    | nil => intro _; rfl
    | cons a t iht =>
      intro hl
      rw [List.flatMap_cons, List.map_append,
        charUpper_map_charLower (hl a (List.mem_cons_self a t)),
        iht (fun c hc => hl c (List.mem_cons_of_mem a hc))]
      rfl
  have hall : ∀ c ∈ s.data, c.toNat < 128 := by
    intro c hc
    exact of_decide_eq_true (List.all_eq_true.mp h c hc)
  show String.mk ((s.data.flatMap charUpper).map charLower) = String.mk (s.data.map charLower)
  rw [key s.data hall]

theorem strLower_strLower (s : String) : strLower (strLower s) = strLower s := by
  show String.mk ((s.data.map charLower).map charLower) = String.mk (s.data.map charLower)
  rw [List.map_map]
  exact congrArg String.mk
    (List.map_eq_map_iff.mpr fun c _ => charLower_charLower c)

/-- Case-insensitive substring containment, as the spec words it: the
lower-cased keyword occurs inside the lower-cased field. -/
def ciContains (hay kw : String) : Bool := strContains (strLower hay) (strLower kw)

/-- Spec-side matching predicate for `search`: the keyword is a
case-insensitive substring of the node id, the name, or the detail (an absent
detail counting as the empty string). -/
def matchesKeywordSpec (kw : String) (entry : String × NodeInfo) : Bool :=
  ciContains entry.1 kw || ciContains entry.2.name kw ||
    ciContains (entry.2.detail.getD "") kw

/-- `search_nodes` only ever consults the lower-cased keyword, so keywords
with the same lower-casing search identically. -/
theorem search_nodes_eq_of_strLower_eq (svc : GraphService) {k1 k2 : String}
    (h : strLower k1 = strLower k2) :
    svc.search_nodes k1 = svc.search_nodes k2 := by
  rw [GraphService.search_nodes, GraphService.search_nodes, h]

/-- A node index with a single entry whose name "Passage" contains "ss". -/
def c7CexSvc : GraphService :=
  ⟨[], [("P", ⟨"P", "Passage", none, 1, none, none, none⟩)], [], true⟩

/-- C7: searching the lower-cased and the upper-cased keyword does not return
identical lists for every keyword: `str.lower` leaves 'ß' fixed while
`str.upper` expands it to "SS", so against a name containing "ss" the
upper-cased keyword matches while the lower-cased one does not. -/
theorem c7_search_case_insensitive_cex :
    strLower "ß" = "ß" ∧ strUpper "ß" = "SS" ∧
      GraphService.search_nodes c7CexSvc (strLower "ß") = [] ∧
      GraphService.search_nodes c7CexSvc (strUpper "ß") =
        [⟨"P", "Passage", none, 1, none, none, none⟩] ∧
      GraphService.search_nodes c7CexSvc (strLower "ß") ≠
        GraphService.search_nodes c7CexSvc (strUpper "ß") := by
  decide

/-- C7 amended: `search_nodes` returns exactly the node records (in index
order) whose id, name, or detail contains the keyword as a case-insensitive
substring; and for every keyword made of ASCII characters — such as the node
ids and names of this service — searching the lower-cased and the upper-cased
keyword returns identical result lists (e.g. `search("lt5") = search("LT5")`).
The ASCII restriction on the second conjunct is necessary: 'ß' refutes the
unrestricted form. -/
theorem c7_search_nodes_ci_amended (svc : GraphService) (kw : String) :
    svc.search_nodes kw =
        (svc.nodes_info.filter (matchesKeywordSpec kw)).map Prod.snd ∧
      (asciiStr kw = true →
        svc.search_nodes (strLower kw) = svc.search_nodes (strUpper kw)) := by
  refine ⟨rfl, fun hkw => ?_⟩
  exact search_nodes_eq_of_strLower_eq svc
    ((strLower_strLower kw).trans (strLower_strUpper_ascii hkw).symm)

/-! ## Path presenter (`get_path_nodes`, `generate_navigation_steps`,
`get_floors_in_path`) -/

/-- The `PathNode` response record (`app/schemas/navigation.py`). -/
structure PathNode where
  id : String
  name : String
  detail : Option String
  floor : Int
  x : Option ℚ
  y : Option ℚ
  node_type : Option String
deriving DecidableEq

/-- The `NavigationStep` response record (`app/schemas/navigation.py`). -/
structure NavigationStep where
  step_number : Nat
  instruction : String
  from_node_id : String
  to_node_id : String
  distance : ℚ
  edge_type : String
  floor_change : Option Int
deriving DecidableEq

/-- Floor of the integer part of a rational (`q.num // q.den` with floor
division), used to model Python's float-to-integer formatting. -/
def ratFloor (q : ℚ) : Int := q.num.fdiv q.den

/-- Python `f"{w:.0f}"`: round half to even to an integer and print it. -/
def fmtF0 (q : ℚ) : String :=
  let f : Int := ratFloor q
  let r : ℚ := q - (f : ℚ)
  let n : Int :=
    if r < 1 / 2 then f
    else if r > 1 / 2 then f + 1
    else if f % 2 = 0 then f else f + 1
  toString n

namespace GraphService

/-- Embeds `GraphService.get_path_nodes`: one `PathNode` per path entry, a
missing id degrading to the id as name and floor `0`. -/
def get_path_nodes (svc : GraphService) (path : List String) : List PathNode :=
  path.map fun node_id =>
    let info := dget svc.nodes_info node_id
    { id := node_id
      name := (info.map NodeInfo.name).getD node_id
      detail := info.bind NodeInfo.detail
      floor := (info.map NodeInfo.floor).getD 0
      x := info.bind NodeInfo.x
      y := info.bind NodeInfo.y
      node_type := info.bind NodeInfo.node_type }

/-- One loop body of `generate_navigation_steps` for the consecutive pair
`(from_id, to_id)` at zero-based index `i`: look up nodes and edge with the
degraded defaults (`edge_type` "normal", `weight` 0, floors 0), compute the
floor change, and build the instruction text by edge type. A stored `None`
detail behaves exactly like the empty string here (it is only truthiness
tested and never printed), so it is modelled by `""`. -/
def mkStep (svc : GraphService) (i : Nat) (from_id to_id : String) : NavigationStep :=
  let from_node := dget svc.nodes_info from_id
  let to_node := dget svc.nodes_info to_id
  let edge := dget svc.edges_info (from_id, to_id)
  let edge_type := (edge.map EdgeInfo.edge_type).getD "normal"
  let weight := (edge.map EdgeInfo.weight).getD 0
  let from_floor := (from_node.map NodeInfo.floor).getD 0
  let to_floor := (to_node.map NodeInfo.floor).getD 0
  let floor_change : Option Int :=
    if from_floor ≠ to_floor then some (to_floor - from_floor) else none
  let to_name := (to_node.map NodeInfo.name).getD to_id
  let to_detail := (to_node.bind NodeInfo.detail).getD ""
  let instruction :=
    if edge_type = "stairs" then
      match floor_change with
      | some fc =>
        if fc > 0 then
          "Go up " ++ toString fc ++ " " ++ (if fc = 1 then "floor" else "floors") ++
            " via stairs to Level " ++ toString to_floor
        else if fc < 0 then
          "Go down " ++ toString fc.natAbs ++ " " ++
            (if fc.natAbs = 1 then "floor" else "floors") ++
            " via stairs to Level " ++ toString to_floor
        else "Pass through stairs to " ++ to_name
      | none => "Pass through stairs to " ++ to_name
    else if edge_type = "lifts" then
      match floor_change with
      | some fc =>
        if fc ≠ 0 then "Take lift to Level " ++ toString to_floor
        else "Pass through lift to " ++ to_name
      | none => "Pass through lift to " ++ to_name
    else
      if to_detail ≠ "" then
        "Walk about " ++ fmtF0 weight ++ "M to " ++ to_name ++ " (" ++ to_detail ++ ")"
      else
        "Walk about " ++ fmtF0 weight ++ "M to " ++ to_name
  { step_number := i + 1
    instruction := instruction
    from_node_id := from_id
    to_node_id := to_id
    distance := weight
    edge_type := edge_type
    floor_change := floor_change }

/-- The `for i in range(len(path) - 1)` loop of `generate_navigation_steps`,
walking consecutive pairs with their index. -/
def stepsAux (svc : GraphService) : Nat → List String → List NavigationStep
  | _, [] => []
  | _, [_] => []
  | i, a :: b :: rest => mkStep svc i a b :: stepsAux svc (i + 1) (b :: rest)

/-- Embeds `GraphService.generate_navigation_steps`. -/
def generate_navigation_steps (svc : GraphService) (path : List String) :
    List NavigationStep :=
  if path.length < 2 then [] else stepsAux svc 0 path

/-- Embeds `GraphService.get_floors_in_path`: the sorted set of floors of the
known nodes on the path (`sorted(set(...))`). -/
def get_floors_in_path (svc : GraphService) (path : List String) : List Int :=
  ((path.filterMap fun node_id =>
    (dget svc.nodes_info node_id).map NodeInfo.floor).dedup).mergeSort
    fun a b => decide (a ≤ b)

end GraphService

theorem stepsAux_length (svc : GraphService) :
    ∀ (path : List String) (i0 : Nat),
      (GraphService.stepsAux svc i0 path).length = path.length - 1 := by
  intro path
  induction path with
  | nil => intro i0; rfl
  | cons a rest ih =>
    intro i0
    cases rest with
    | nil => rfl
    | cons b rest2 =>
      rw [GraphService.stepsAux]
      simp only [List.length_cons]
      rw [ih (i0 + 1)]
      simp

theorem stepsAux_get (svc : GraphService) :
    ∀ (path : List String) (i0 j : Nat) (fi ti : String),
      path.get? j = some fi → path.get? (j + 1) = some ti →
      (GraphService.stepsAux svc i0 path).get? j =
        some (GraphService.mkStep svc (i0 + j) fi ti) := by
  intro path
  induction path with
  | nil => intro i0 j fi ti hf; simp at hf
  | cons a rest ih =>
    intro i0 j fi ti hf ht
    cases rest with
    | nil =>
      rcases j with _ | j <;> simp at ht
    | cons b rest2 =>
      cases j with
      | zero =>
        simp only [List.get?] at hf ht
        cases hf
        cases ht
        rw [GraphService.stepsAux]
        simp
      | succ j =>
        rw [GraphService.stepsAux]
        simp only [List.get?] at hf ht ⊢
        have := ih (i0 + 1) j fi ti hf ht
        rw [this]
        have harith : i0 + 1 + j = i0 + (j + 1) := by omega
        rw [harith]

/-- Extractor used to state what a step "carries": the looked-up edge weight,
defaulting to `0`. -/
def edgeWeightOf (svc : GraphService) (a b : String) : ℚ :=
  ((dget svc.edges_info (a, b)).map EdgeInfo.weight).getD 0

/-- Extractor: the looked-up edge type, defaulting to `"normal"`. -/
def edgeTypeOf (svc : GraphService) (a b : String) : String :=
  ((dget svc.edges_info (a, b)).map EdgeInfo.edge_type).getD "normal"

/-- Extractor: the floor change between the two nodes' floors (`0` for an
unknown node), absent when the floors agree. -/
def floorChangeOf (svc : GraphService) (a b : String) : Option Int :=
  let ff := ((dget svc.nodes_info a).map NodeInfo.floor).getD 0
  let tf := ((dget svc.nodes_info b).map NodeInfo.floor).getD 0
  if ff ≠ tf then some (tf - ff) else none

/-- C4: `generate_navigation_steps` on fewer than two nodes yields no steps;
on an `N`-node path it yields exactly `N - 1` steps, the `i`-th (0-based)
referencing `path[i]` and `path[i+1]` with 1-based step number `i + 1` and
carrying the looked-up edge distance, edge type, and floor change. -/
theorem c4_render_steps_shape (svc : GraphService) (path : List String) :
    (path.length < 2 → svc.generate_navigation_steps path = []) ∧
      (svc.generate_navigation_steps path).length = path.length - 1 ∧
      (∀ i fi ti, path.get? i = some fi → path.get? (i + 1) = some ti →
        ∃ st, (svc.generate_navigation_steps path).get? i = some st ∧
          st.step_number = i + 1 ∧ st.from_node_id = fi ∧ st.to_node_id = ti ∧
          st.distance = edgeWeightOf svc fi ti ∧
          st.edge_type = edgeTypeOf svc fi ti ∧
          st.floor_change = floorChangeOf svc fi ti) := by
  refine ⟨fun hlen => by rw [GraphService.generate_navigation_steps, if_pos hlen], ?_, ?_⟩
  · rw [GraphService.generate_navigation_steps]
    by_cases hlen : path.length < 2
    · rw [if_pos hlen]
      simp only [List.length_nil]
      omega
    · rw [if_neg hlen]
      exact stepsAux_length svc path 0
  · intro i fi ti hf ht
    obtain ⟨hlt, -⟩ := List.get?_eq_some.mp ht
    have hlen : ¬ path.length < 2 := by omega
    rw [GraphService.generate_navigation_steps, if_neg hlen]
    have hg := stepsAux_get svc path 0 i fi ti hf ht
    rw [Nat.zero_add] at hg
    exact ⟨GraphService.mkStep svc i fi ti, hg, rfl, rfl, rfl, rfl, rfl, rfl⟩

/-- Formatting a zero distance prints `"0"`. -/
theorem fmtF0_zero : fmtF0 0 = "0" := by
  have hf : ratFloor 0 = 0 := rfl
  rw [fmtF0]
  rw [hf]
  norm_num
  rfl

/-- C10: `generate_navigation_steps` is a total function of any node-id list
(the embedding never raises by construction), and on a consecutive pair whose
nodes are absent from the node index and whose edge is absent from the edge
index it emits the degraded step: edge type `"normal"`, distance `0`, floor
change computed from the default floors `0` (hence absent), and the raw
destination id as the destination name of the instruction text. -/
theorem c10_steps_degraded_defaults (svc : GraphService) (path : List String)
    (i : Nat) (fi ti : String)
    (hf : path.get? i = some fi) (ht : path.get? (i + 1) = some ti)
    (hfn : dget svc.nodes_info fi = none) (htn : dget svc.nodes_info ti = none)
    (hen : dget svc.edges_info (fi, ti) = none) :
    (svc.generate_navigation_steps path).get? i =
      some ⟨i + 1, "Walk about 0M to " ++ ti, fi, ti, 0, "normal", none⟩ := by
  obtain ⟨hlt, -⟩ := List.get?_eq_some.mp ht
  have hlen : ¬ path.length < 2 := by omega
  rw [GraphService.generate_navigation_steps, if_neg hlen]
  have hg := stepsAux_get svc path 0 i fi ti hf ht
  rw [Nat.zero_add] at hg
  rw [hg]
  congr 1
  rw [GraphService.mkStep]
  rw [hfn, htn, hen]
  dsimp only [Option.map_none', Option.getD_none, Option.bind_none]
  rw [if_neg (by decide), if_neg (by decide), if_neg (by norm_num), fmtF0_zero]
  congr 1

/-! ## Heuristic claims (C3) -/

/-- The spec's "both nodes have coordinates": `x` and `y` are present. -/
def hasCoords (n : Option NodeInfo) : Bool :=
  (n.bind NodeInfo.x).isSome && (n.bind NodeInfo.y).isSome

/-- Modelled from the spec sentence of C3 (its literal reading): when both
nodes have coordinates, Euclidean pixel distance — `sqrtFn` applied to
`dx² + dy²` — plus `30·|Δfloor|`; when either lacks coordinates,
`50·|Δfloor|`. -/
def heuristicSpecC3 (sqrtFn : ℚ → ℚ) (nodes : List (String × NodeInfo))
    (a b : String) : ℚ :=
  let n1 := dget nodes a
  let n2 := dget nodes b
  let f1 : Int := (n1.map NodeInfo.floor).getD 0
  let f2 : Int := (n2.map NodeInfo.floor).getD 0
  if hasCoords n1 && hasCoords n2 then
    let dx := (n1.bind NodeInfo.x).getD 0 - (n2.bind NodeInfo.x).getD 0
    let dy := (n1.bind NodeInfo.y).getD 0 - (n2.bind NodeInfo.y).getD 0
    sqrtFn (dx * dx + dy * dy) + ((f1 - f2).natAbs : ℚ) * 30
  else
    ((f1 - f2).natAbs : ℚ) * 50

/-- The amended guard the code actually implements: both coordinates present
and nonzero (Python truthiness treats `0.0` like a missing value). -/
def hasTruthyCoords (n : Option NodeInfo) : Bool :=
  truthyQ (n.bind NodeInfo.x) && truthyQ (n.bind NodeInfo.y)

/-- The C3 claim amended to the code's truthiness guard. -/
def heuristicSpecC3Amended (sqrtFn : ℚ → ℚ) (nodes : List (String × NodeInfo))
    (a b : String) : ℚ :=
  let n1 := dget nodes a
  let n2 := dget nodes b
  let f1 : Int := (n1.map NodeInfo.floor).getD 0
  let f2 : Int := (n2.map NodeInfo.floor).getD 0
  if hasTruthyCoords n1 && hasTruthyCoords n2 then
    let dx := (n1.bind NodeInfo.x).getD 0 - (n2.bind NodeInfo.x).getD 0
    let dy := (n1.bind NodeInfo.y).getD 0 - (n2.bind NodeInfo.y).getD 0
    sqrtFn (dx * dx + dy * dy) + ((f1 - f2).natAbs : ℚ) * 30
  else
    ((f1 - f2).natAbs : ℚ) * 50

/-- Two positioned nodes on one floor, the first at the map origin: the
zero-valued coordinates are present, yet falsy for the code's guard. -/
def c3CexNodes : List (String × NodeInfo) :=
  [("a", ⟨"a", "Origin", none, 1, some 0, some 0, none⟩),
    ("b", ⟨"b", "Other", none, 1, some 3, some 4, none⟩)]

/-- C3 counterexample: at a node with coordinates `(0, 0)` the code falls back
to the floor-difference formula (giving `0` here), not the claimed Euclidean
distance (`sqrtFn 25 = 25` for `sqrtFn = id`), so the claim as stated fails. -/
theorem c3_heuristic_zero_coordinate_cex :
    GraphService.heuristic id c3CexNodes "a" "b" ≠
      heuristicSpecC3 id c3CexNodes "a" "b" := by
  have hda : dget c3CexNodes "a" = some ⟨"a", "Origin", none, 1, some 0, some 0, none⟩ :=
    rfl
  have hdb : dget c3CexNodes "b" = some ⟨"b", "Other", none, 1, some 3, some 4, none⟩ :=
    rfl
  rw [GraphService.heuristic, heuristicSpecC3, hda, hdb]
  simp only [truthyQ, hasCoords, Option.bind_some, Option.map_some', Option.getD_some,
    Option.isSome_some, Bool.and_true, Bool.true_and, bne_self_eq_false, Bool.false_and,
    Bool.and_false, if_false, Bool.and_self, if_true, id_eq]
  norm_num

/-- C3 amended: the heuristic equals the spec formula with "has coordinates"
amended to "has truthy (present and nonzero) coordinates"; both branches are
otherwise exactly as the spec states, for every square-root function. -/
theorem c3_heuristic_formula_amended (sqrtFn : ℚ → ℚ)
    (nodes : List (String × NodeInfo)) (a b : String) :
    GraphService.heuristic sqrtFn nodes a b =
      heuristicSpecC3Amended sqrtFn nodes a b := by
  rw [GraphService.heuristic, heuristicSpecC3Amended]
  simp only [hasTruthyCoords, Bool.and_assoc]

/-! ## Graph-builder claims (C5) -/

theorem adjOf_dset (G : Graph) (k : String) (v : List (String × ℚ × String))
    (x : String) : adjOf (dset G k v) x = if k = x then v else adjOf G x := by
  by_cases h : k = x
  · subst h
    simp [adjOf, dget_dset_self]
  · simp [adjOf, dget_dset_ne _ _ _ _ h, h]

theorem adjOf_ensureKey (G : Graph) (k x : String) :
    adjOf (GraphService.ensureKey G k) x = adjOf G x := by
  rw [GraphService.ensureKey]
  rcases hk : dget G k with _ | l
  · rw [if_neg (by simp), adjOf_dset]
    by_cases h : k = x
    · subst h
      rw [if_pos rfl]
      simp [adjOf, hk]
    · rw [if_neg h]
  · rw [if_pos (by simp)]

theorem dget_ensureKey_isSome (G : Graph) (k : String) :
    (dget (GraphService.ensureKey G k) k).isSome := by
  rw [GraphService.ensureKey]
  by_cases h : (dget G k).isSome
  · rwa [if_pos h]
  · rw [if_neg h]
    simp [dget_dset_self]

theorem dget_ensureKey_mono (G : Graph) (k x : String)
    (h : (dget G x).isSome) : (dget (GraphService.ensureKey G k) x).isSome := by
  rw [GraphService.ensureKey]
  by_cases hk : (dget G k).isSome
  · rwa [if_pos hk]
  · rw [if_neg hk]
    by_cases hkx : k = x
    · subst hkx
      simp [dget_dset_self]
    · rwa [dget_dset_ne _ _ _ _ hkx]

theorem dget_appendAdj_self (G : Graph) (k : String) (tup : String × ℚ × String) :
    (dget (GraphService.appendAdj G k tup) k).isSome := by
  simp [GraphService.appendAdj, dget_dset_self]

theorem dget_appendAdj_mono (G : Graph) (k : String) (tup : String × ℚ × String)
    (x : String) (h : (dget G x).isSome) :
    (dget (GraphService.appendAdj G k tup) x).isSome := by
  rw [GraphService.appendAdj]
  by_cases hkx : k = x
  · subst hkx
    simp [dget_dset_self]
  · rwa [dget_dset_ne _ _ _ _ hkx]

theorem mem_adjOf_appendAdj_self (G : Graph) (k : String)
    (tup : String × ℚ × String) : tup ∈ adjOf (GraphService.appendAdj G k tup) k := by
  rw [GraphService.appendAdj]
  have : adjOf (dset G k (((dget G k).getD []) ++ [tup])) k =
      ((dget G k).getD []) ++ [tup] := by
    rw [adjOf_dset, if_pos rfl]
  rw [this]
  exact List.mem_append_right _ (by simp)

theorem mem_adjOf_appendAdj_mono (G : Graph) (k : String)
    (tup' tup : String × ℚ × String) (x : String) (h : tup ∈ adjOf G x) :
    tup ∈ adjOf (GraphService.appendAdj G k tup') x := by
  rw [GraphService.appendAdj, adjOf_dset]
  by_cases hkx : k = x
  · subst hkx
    rw [if_pos rfl]
    exact List.mem_append_left _ (by rwa [adjOf] at h)
  · rwa [if_neg hkx]

/-- The adjacency list of the processed edge's source gains the edge. -/
theorem loadEdge_mem_from (svc : GraphService) (e : DBEdge) :
    (e.to_node_id, e.weight, e.edge_type) ∈
      adjOf (svc.loadEdge e).graph e.from_node_id := by
  rw [GraphService.loadEdge]
  exact mem_adjOf_appendAdj_mono _ _ _ _ _ (mem_adjOf_appendAdj_self _ _ _)

/-- The adjacency list of the processed edge's target gains the reverse
edge. -/
theorem loadEdge_mem_to (svc : GraphService) (e : DBEdge) :
    (e.from_node_id, e.weight, e.edge_type) ∈
      adjOf (svc.loadEdge e).graph e.to_node_id := by
  rw [GraphService.loadEdge]
  exact mem_adjOf_appendAdj_self _ _ _

/-- Both endpoint ids of the processed edge are adjacency keys. -/
theorem loadEdge_keys (svc : GraphService) (e : DBEdge) :
    (dget (svc.loadEdge e).graph e.from_node_id).isSome ∧
      (dget (svc.loadEdge e).graph e.to_node_id).isSome := by
  rw [GraphService.loadEdge]
  constructor
  · exact dget_appendAdj_mono _ _ _ _ (dget_appendAdj_self _ _ _)
  · exact dget_appendAdj_self _ _ _

/-- After processing an edge, the edge-info index holds its record under both
ordered key pairs. -/
theorem loadEdge_ei_pair (svc : GraphService) (e : DBEdge) :
    dget (svc.loadEdge e).edges_info (e.from_node_id, e.to_node_id) =
        some ⟨e.weight, e.edge_type, e.is_vertical⟩ ∧
      dget (svc.loadEdge e).edges_info (e.to_node_id, e.from_node_id) =
        some ⟨e.weight, e.edge_type, e.is_vertical⟩ := by
  rw [GraphService.loadEdge]
  refine ⟨?_, dget_dset_self _ _ _⟩
  by_cases h : (e.from_node_id, e.to_node_id) = (e.to_node_id, e.from_node_id)
  · rw [h, dget_dset_self]
  · rw [dget_dset_ne _ _ _ _ (Ne.symm h), dget_dset_self]

/-- Edge-info keys other than the processed edge's two ordered pairs keep
their bindings. -/
theorem loadEdge_ei_unchanged (svc : GraphService) (e : DBEdge) (p q : String)
    (h1 : (p, q) ≠ (e.from_node_id, e.to_node_id))
    (h2 : (p, q) ≠ (e.to_node_id, e.from_node_id)) :
    dget (svc.loadEdge e).edges_info (p, q) = dget svc.edges_info (p, q) := by
  rw [GraphService.loadEdge]
  rw [dget_dset_ne _ _ _ _ (Ne.symm h2), dget_dset_ne _ _ _ _ (Ne.symm h1)]

/-- Two unordered endpoint pairs coincide. -/
def sameUPairIds (p q f t : String) : Prop := (p = f ∧ q = t) ∨ (p = t ∧ q = f)

instance (p q f t : String) : Decidable (sameUPairIds p q f t) := by
  rw [sameUPairIds]
  infer_instance

/-- Two edge records connect the same unordered pair of nodes. -/
def sameUPair (e1 e2 : DBEdge) : Prop :=
  sameUPairIds e1.from_node_id e1.to_node_id e2.from_node_id e2.to_node_id

instance (e1 e2 : DBEdge) : Decidable (sameUPair e1 e2) := by
  rw [sameUPair]
  infer_instance

/-- Processing an edge of a different unordered pair does not touch the two
bindings of this pair. -/
theorem loadEdge_ei_keep (svc : GraphService) (e : DBEdge) (p q : String)
    (hne : ¬ sameUPairIds p q e.from_node_id e.to_node_id) :
    dget (svc.loadEdge e).edges_info (p, q) = dget svc.edges_info (p, q) ∧
      dget (svc.loadEdge e).edges_info (q, p) = dget svc.edges_info (q, p) := by
  rw [sameUPairIds, not_or, not_and_or, not_and_or] at hne
  obtain ⟨hne1, hne2⟩ := hne
  constructor
  · refine loadEdge_ei_unchanged svc e p q ?_ ?_ <;> intro habs
    · exact hne1.elim (· (congrArg Prod.fst habs)) (· (congrArg Prod.snd habs))
    · exact hne2.elim (· (congrArg Prod.fst habs)) (· (congrArg Prod.snd habs))
  · refine loadEdge_ei_unchanged svc e q p ?_ ?_ <;> intro habs
    · exact hne2.elim (fun hh => hh (congrArg Prod.snd habs))
        (fun hh => hh (congrArg Prod.fst habs))
    · exact hne1.elim (fun hh => hh (congrArg Prod.snd habs))
        (fun hh => hh (congrArg Prod.fst habs))

/-- Processing any edge preserves symmetric joint presence of a key pair in
the edge-info index. -/
theorem loadEdge_ei_sym_mono (svc : GraphService) (e : DBEdge) (p q : String)
    (h : ∃ i, dget svc.edges_info (p, q) = some i ∧
      dget svc.edges_info (q, p) = some i) :
    ∃ i, dget (svc.loadEdge e).edges_info (p, q) = some i ∧
      dget (svc.loadEdge e).edges_info (q, p) = some i := by
  by_cases hc : sameUPairIds p q e.from_node_id e.to_node_id
  · obtain ⟨hpair1, hpair2⟩ := loadEdge_ei_pair svc e
    rcases hc with ⟨hp, hq⟩ | ⟨hp, hq⟩
    · subst hp
      subst hq
      exact ⟨_, hpair1, hpair2⟩
    · subst hp
      subst hq
      exact ⟨_, hpair2, hpair1⟩
  · obtain ⟨hk1, hk2⟩ := loadEdge_ei_keep svc e p q hc
    obtain ⟨i, hi1, hi2⟩ := h
    exact ⟨i, by rw [hk1, hi1], by rw [hk2, hi2]⟩

/-- Adjacency membership is preserved by processing any further edge. -/
theorem loadEdge_adj_mono (svc : GraphService) (e : DBEdge)
    {tup : String × ℚ × String} {x : String} (h : tup ∈ adjOf svc.graph x) :
    tup ∈ adjOf (svc.loadEdge e).graph x := by
  rw [GraphService.loadEdge]
  refine mem_adjOf_appendAdj_mono _ _ _ _ _ (mem_adjOf_appendAdj_mono _ _ _ _ _ ?_)
  rw [adjOf_ensureKey, adjOf_ensureKey]
  exact h

/-- Adjacency key presence is preserved by processing any further edge. -/
theorem loadEdge_key_mono (svc : GraphService) (e : DBEdge) {x : String}
    (h : (dget svc.graph x).isSome) :
    (dget (svc.loadEdge e).graph x).isSome := by
  rw [GraphService.loadEdge]
  exact dget_appendAdj_mono _ _ _ _ (dget_appendAdj_mono _ _ _ _
    (dget_ensureKey_mono _ _ _ (dget_ensureKey_mono _ _ _ h)))

theorem foldl_loadEdge_adj_mono :
    ∀ (edges : List DBEdge) (svc : GraphService) {tup : String × ℚ × String}
      {x : String}, tup ∈ adjOf svc.graph x →
      tup ∈ adjOf (edges.foldl GraphService.loadEdge svc).graph x := by
  intro edges
  induction edges with
  | nil => intro svc tup x h; exact h
  | cons e rest ih =>
    intro svc tup x h
    exact ih _ (loadEdge_adj_mono svc e h)

theorem foldl_loadEdge_key_mono :
    ∀ (edges : List DBEdge) (svc : GraphService) {x : String},
      (dget svc.graph x).isSome →
      (dget (edges.foldl GraphService.loadEdge svc).graph x).isSome := by
  intro edges
  induction edges with
  | nil => intro svc x h; exact h
  | cons e rest ih =>
    intro svc x h
    exact ih _ (loadEdge_key_mono svc e h)

theorem foldl_loadEdge_ei_sym_mono :
    ∀ (edges : List DBEdge) (svc : GraphService) {p q : String},
      (∃ i, dget svc.edges_info (p, q) = some i ∧
        dget svc.edges_info (q, p) = some i) →
      ∃ i, dget (edges.foldl GraphService.loadEdge svc).edges_info (p, q) = some i ∧
        dget (edges.foldl GraphService.loadEdge svc).edges_info (q, p) = some i := by
  intro edges
  induction edges with
  | nil => intro svc p q h; exact h
  | cons e rest ih =>
    intro svc p q h
    exact ih _ (loadEdge_ei_sym_mono svc e _ _ h)

theorem foldl_loadEdge_ei_keep :
    ∀ (edges : List DBEdge) (svc : GraphService) {p q : String}
      {v w : Option EdgeInfo},
      (∀ e ∈ edges, ¬ sameUPairIds p q e.from_node_id e.to_node_id) →
      dget svc.edges_info (p, q) = v → dget svc.edges_info (q, p) = w →
      dget (edges.foldl GraphService.loadEdge svc).edges_info (p, q) = v ∧
        dget (edges.foldl GraphService.loadEdge svc).edges_info (q, p) = w := by
  intro edges
  induction edges with
  | nil => intro svc p q v w _ hv hw; exact ⟨hv, hw⟩
  | cons e rest ih =>
    intro svc p q v w hall hv hw
    obtain ⟨hk1, hk2⟩ := loadEdge_ei_keep svc e _ _ (hall e (List.mem_cons_self _ _))
    exact ih _ (fun e' he' => hall e' (List.mem_cons_of_mem _ he'))
      (by rw [hk1, hv]) (by rw [hk2, hw])

/-- Core of the C5 claims over the whole edge fold. -/
theorem foldl_loadEdge_spec :
    ∀ (edges : List DBEdge) (svc : GraphService) (e : DBEdge), e ∈ edges →
      ((e.to_node_id, e.weight, e.edge_type) ∈
          adjOf (edges.foldl GraphService.loadEdge svc).graph e.from_node_id) ∧
        ((e.from_node_id, e.weight, e.edge_type) ∈
          adjOf (edges.foldl GraphService.loadEdge svc).graph e.to_node_id) ∧
        (dget (edges.foldl GraphService.loadEdge svc).graph e.from_node_id).isSome ∧
        (dget (edges.foldl GraphService.loadEdge svc).graph e.to_node_id).isSome ∧
        (∃ i, dget (edges.foldl GraphService.loadEdge svc).edges_info
            (e.from_node_id, e.to_node_id) = some i ∧
          dget (edges.foldl GraphService.loadEdge svc).edges_info
            (e.to_node_id, e.from_node_id) = some i) ∧
        (edges.Pairwise (fun e1 e2 => ¬ sameUPair e1 e2) →
          dget (edges.foldl GraphService.loadEdge svc).edges_info
              (e.from_node_id, e.to_node_id) =
            some ⟨e.weight, e.edge_type, e.is_vertical⟩ ∧
          dget (edges.foldl GraphService.loadEdge svc).edges_info
              (e.to_node_id, e.from_node_id) =
            some ⟨e.weight, e.edge_type, e.is_vertical⟩) := by
  intro edges
  induction edges with
  | nil => intro svc e he; cases he
  | cons e0 rest ih =>
    intro svc e he
    rcases List.mem_cons.mp he with rfl | he'
    · rw [List.foldl_cons]
      obtain ⟨hp1, hp2⟩ := loadEdge_ei_pair svc e
      refine ⟨foldl_loadEdge_adj_mono rest _ (loadEdge_mem_from svc e),
        foldl_loadEdge_adj_mono rest _ (loadEdge_mem_to svc e),
        foldl_loadEdge_key_mono rest _ (loadEdge_keys svc e).1,
        foldl_loadEdge_key_mono rest _ (loadEdge_keys svc e).2,
        foldl_loadEdge_ei_sym_mono rest _ ⟨_, hp1, hp2⟩, ?_⟩
      intro hpw
      have hall : ∀ e' ∈ rest, ¬ sameUPairIds e.from_node_id e.to_node_id
          e'.from_node_id e'.to_node_id := by
        intro e' he''
        exact (List.pairwise_cons.mp hpw).1 e' he''
      exact foldl_loadEdge_ei_keep rest _ hall hp1 hp2
    · rw [List.foldl_cons]
      refine ⟨(ih _ e he').1, (ih _ e he').2.1, (ih _ e he').2.2.1,
        (ih _ e he').2.2.2.1, (ih _ e he').2.2.2.2.1, ?_⟩
      intro hpw
      exact (ih _ e he').2.2.2.2.2 (List.pairwise_cons.mp hpw).2

/-- The C5 claim as frozen, instantiated at a concrete record set: every edge
record appears in both adjacency lists, is indexed under both ordered key
pairs with its own weight and type, and both its endpoints are adjacency
keys. -/
def c5ClaimAt (nodes : List DBNode) (edges : List DBEdge) : Prop :=
  ∀ e ∈ edges,
    ((e.to_node_id, e.weight, e.edge_type) ∈
        adjOf (GraphService.init.load_graph_from_db nodes edges).graph e.from_node_id) ∧
      ((e.from_node_id, e.weight, e.edge_type) ∈
        adjOf (GraphService.init.load_graph_from_db nodes edges).graph e.to_node_id) ∧
      dget (GraphService.init.load_graph_from_db nodes edges).edges_info
          (e.from_node_id, e.to_node_id) =
        some ⟨e.weight, e.edge_type, e.is_vertical⟩ ∧
      dget (GraphService.init.load_graph_from_db nodes edges).edges_info
          (e.to_node_id, e.from_node_id) =
        some ⟨e.weight, e.edge_type, e.is_vertical⟩ ∧
      (dget (GraphService.init.load_graph_from_db nodes edges).graph
        e.from_node_id).isSome ∧
      (dget (GraphService.init.load_graph_from_db nodes edges).graph
        e.to_node_id).isSome

/-- Two records for the same unordered pair with different weights: the
second overwrites the first in the edge-info index. -/
def c5CexEdges : List DBEdge :=
  [⟨"A", "B", 5, "normal", false⟩, ⟨"A", "B", 7, "normal", false⟩]

/-- C5 counterexample: with duplicate records for one node pair, the first
record's weight is no longer in the edge-info index after the load, so the
claim as stated fails on this record set. -/
theorem c5_duplicate_edge_overwrites_cex : ¬ c5ClaimAt [] c5CexEdges := by
  unfold c5ClaimAt
  decide

/-- C5 amended: after a completed load, every edge record is in both endpoint
adjacency lists, both its endpoints are adjacency keys, and the edge-info
index binds its two ordered key pairs to one identical record; when no two
records share an unordered endpoint pair, that record is the edge's own
weight, type and vertical flag (in general it is the last record loaded for
the pair). -/
theorem c5_load_graph_invariants_amended (svc : GraphService)
    (nodes : List DBNode) (edges : List DBEdge) (e : DBEdge) (he : e ∈ edges) :
    ((e.to_node_id, e.weight, e.edge_type) ∈
        adjOf (svc.load_graph_from_db nodes edges).graph e.from_node_id) ∧
      ((e.from_node_id, e.weight, e.edge_type) ∈
        adjOf (svc.load_graph_from_db nodes edges).graph e.to_node_id) ∧
      (dget (svc.load_graph_from_db nodes edges).graph e.from_node_id).isSome ∧
      (dget (svc.load_graph_from_db nodes edges).graph e.to_node_id).isSome ∧
      (∃ i, dget (svc.load_graph_from_db nodes edges).edges_info
          (e.from_node_id, e.to_node_id) = some i ∧
        dget (svc.load_graph_from_db nodes edges).edges_info
          (e.to_node_id, e.from_node_id) = some i) ∧
      (edges.Pairwise (fun e1 e2 => ¬ sameUPair e1 e2) →
        dget (svc.load_graph_from_db nodes edges).edges_info
            (e.from_node_id, e.to_node_id) =
          some ⟨e.weight, e.edge_type, e.is_vertical⟩ ∧
        dget (svc.load_graph_from_db nodes edges).edges_info
            (e.to_node_id, e.from_node_id) =
          some ⟨e.weight, e.edge_type, e.is_vertical⟩) :=
  foldl_loadEdge_spec edges (nodes.foldl GraphService.loadNode svc) e he

/-- C6: the cache lifecycle is the two-state machine the spec describes: the
flag is stale at construction, `clear_cache` empties all three dictionaries
and marks the cache stale, a completed load marks it fresh, and
`reload_required` answers true exactly when the flag is stale. -/
theorem c6_cache_lifecycle :
    GraphService.init.reload_required = true ∧
      (∀ svc : GraphService, svc.clear_cache = ⟨[], [], [], false⟩) ∧
      (∀ (svc : GraphService) (nodes : List DBNode) (edges : List DBEdge),
        (svc.load_graph_from_db nodes edges).loaded = true) ∧
      (∀ svc : GraphService, svc.reload_required = true ↔ svc.loaded = false) := by
  refine ⟨rfl, fun svc => rfl, fun svc nodes edges => rfl, fun svc => ?_⟩
  rw [GraphService.reload_required]
  cases h : svc.loaded <;> simp

/-! ## Route endpoint (`app/api/endpoints/navigation.py`, `calculate_route`).
The handler first ensures the graph is fresh (reload-if-stale); the model
takes the resulting service state as input and embeds the remainder of the
handler (start validation, target resolution, astar, response shaping). HTTP
errors raised via `HTTPException` are the `Except.error` branch, carrying
status code and detail string. -/

/-- The `RouteRequest` schema: a required start id and two optional target
fields. -/
structure RouteRequest where
  start_node_id : String
  target_name : Option String
  target_node_id : Option String
deriving DecidableEq

/-- The `RouteResponse` schema (success shape only; `total_distance` is the
`Option ℚ` float model of `astar`'s first component). -/
structure RouteResponse where
  success : Bool
  path : List String
  path_nodes : List PathNode
  total_distance : Option ℚ
  steps : List NavigationStep
  floors_involved : List Int
  message : String
deriving DecidableEq

/-- Python truthiness of an optional string: `None` and `""` are falsy. -/
def truthyStrOpt : Option String → Bool
  | none => false
  | some s => s ≠ ""

namespace GraphService

/-- Target-resolution step of the route handler: keep `target_node_id` unless
it is falsy while `target_name` is truthy, in which case fuzzy-search the name
and take the first match, failing with 404 when there is none. -/
def resolveTargetId (svc : GraphService) (req : RouteRequest) :
    Except (Nat × String) (Option String) :=
  if !truthyStrOpt req.target_node_id && truthyStrOpt req.target_name then
    match svc.search_nodes (req.target_name.getD "") with
    | [] => Except.error (404, "未找到匹配的目标: " ++ req.target_name.getD "")
    | m :: _ => Except.ok (some m.id)
  else Except.ok req.target_node_id

/-- Embeds the route handler `calculate_route` after the freshness check. -/
def calculate_route (svc : GraphService) (sqrtFn : ℚ → ℚ) (req : RouteRequest) :
    Except (Nat × String) RouteResponse :=
  if (dget svc.nodes_info req.start_node_id).isNone then
    Except.error (404, "起点节点不存在: " ++ req.start_node_id)
  else
    match svc.resolveTargetId req with
    | Except.error err => Except.error err
    | Except.ok tid =>
      if !truthyStrOpt tid then
        Except.error (400, "请提供 target_name 或 target_node_id")
      else
        let target := tid.getD ""
        if (dget svc.nodes_info target).isNone then
          Except.error (404, "终点节点不存在: " ++ target)
        else
          match svc.astar sqrtFn req.start_node_id target with
          | (total_distance, path) =>
            if path.isEmpty then
              Except.error (404, "无法找到路径，请检查节点是否连通")
            else
              Except.ok
                { success := true
                  path := path
                  path_nodes := svc.get_path_nodes path
                  total_distance := total_distance
                  steps := svc.generate_navigation_steps path
                  floors_involved := svc.get_floors_in_path path
                  message := "路径规划成功" }

end GraphService

/-- Strings with different first characters differ. -/
theorem string_head_ne {a b : String} {c1 c2 : Char} (h1 : a.data.head? = some c1)
    (h2 : b.data.head? = some c2) (hne : c1 ≠ c2) : a ≠ b := by
  intro h
  rw [h, h2] at h1
  cases h1
  exact hne rfl

/-- Errors produced by target resolution always carry the no-match detail. -/
theorem resolveTargetId_error {svc : GraphService} {req : RouteRequest}
    {err : Nat × String} (h : svc.resolveTargetId req = Except.error err) :
    ∃ s, err = (404, "未找到匹配的目标: " ++ s) := by
  rw [GraphService.resolveTargetId] at h
  by_cases hc : (!truthyStrOpt req.target_node_id && truthyStrOpt req.target_name) = true
  · rw [if_pos hc] at h
    rcases hs : svc.search_nodes (req.target_name.getD "") with _ | ⟨m, rest⟩ <;>
      rw [hs] at h
    · injection h with h1
      exact ⟨req.target_name.getD "", h1.symm⟩
    · cases h
  · rw [if_neg hc] at h
    cases h

/-- C8: the route endpoint returns the NoRoute error exactly when the start
node exists, the target resolves to an existing node, and `astar` exhausts
with an empty path; and that error's detail string differs from every detail
a NotFound outcome (unknown start, unknown target, fuzzy search without
matches) or a BadRequest outcome can produce, so the two failure kinds are
distinguishable across the API boundary. -/
theorem c8_noroute_distinct_from_notfound (svc : GraphService) (sqrtFn : ℚ → ℚ)
    (req : RouteRequest) :
    (svc.calculate_route sqrtFn req =
        Except.error (404, "无法找到路径，请检查节点是否连通") ↔
      ((dget svc.nodes_info req.start_node_id).isSome = true ∧
        ∃ tid, svc.resolveTargetId req = Except.ok tid ∧ truthyStrOpt tid = true ∧
          (dget svc.nodes_info (tid.getD "")).isSome = true ∧
          (svc.astar sqrtFn req.start_node_id (tid.getD "")).2 = [])) ∧
      (∀ s : String,
        ("无法找到路径，请检查节点是否连通" : String) ≠ "起点节点不存在: " ++ s ∧
          ("无法找到路径，请检查节点是否连通" : String) ≠ "未找到匹配的目标: " ++ s ∧
          ("无法找到路径，请检查节点是否连通" : String) ≠ "终点节点不存在: " ++ s ∧
          ("无法找到路径，请检查节点是否连通" : String) ≠
            "请提供 target_name 或 target_node_id") := by
  have hdist : ∀ s : String,
      ("无法找到路径，请检查节点是否连通" : String) ≠ "起点节点不存在: " ++ s ∧
        ("无法找到路径，请检查节点是否连通" : String) ≠ "未找到匹配的目标: " ++ s ∧
        ("无法找到路径，请检查节点是否连通" : String) ≠ "终点节点不存在: " ++ s ∧
        ("无法找到路径，请检查节点是否连通" : String) ≠
          "请提供 target_name 或 target_node_id" := by
    intro s
    exact ⟨string_head_ne rfl rfl (by decide), string_head_ne rfl rfl (by decide),
      string_head_ne rfl rfl (by decide), string_head_ne rfl rfl (by decide)⟩
  refine ⟨?_, hdist⟩
  rw [GraphService.calculate_route]
  constructor
  · intro h
    by_cases hs : (dget svc.nodes_info req.start_node_id).isNone = true
    · rw [if_pos hs] at h
      injection h with h1
      exact absurd (congrArg Prod.snd h1).symm (hdist req.start_node_id).1
    · rw [if_neg hs] at h
      rcases hr : svc.resolveTargetId req with err | tid <;> rw [hr] at h <;>
        dsimp only at h
      · obtain ⟨s, rfl⟩ := resolveTargetId_error hr
        injection h with h1
        exact absurd (congrArg Prod.snd h1).symm (hdist s).2.1
      · by_cases ht : (!truthyStrOpt tid) = true
        · rw [if_pos ht] at h
          injection h with h1
          exact absurd (congrArg Prod.snd h1).symm (hdist "").2.2.2
        · rw [if_neg ht] at h
          by_cases htg : (dget svc.nodes_info (tid.getD "")).isNone = true
          · rw [if_pos htg] at h
            injection h with h1
            exact absurd (congrArg Prod.snd h1).symm (hdist (tid.getD "")).2.2.1
          · rw [if_neg htg] at h
            rcases ha : svc.astar sqrtFn req.start_node_id (tid.getD "") with ⟨d, path⟩
            rw [ha] at h
            dsimp only at h
            by_cases hp : path.isEmpty = true
            · refine ⟨?_, tid, rfl, ?_, ?_, ?_⟩
              · rcases hdg : dget svc.nodes_info req.start_node_id with _ | v
                · rw [hdg] at hs
                  exact absurd rfl hs
                · rfl
              · rcases htt : truthyStrOpt tid with _ | _
                · rw [htt] at ht
                  exact absurd rfl ht
                · rfl
              · rcases hdg : dget svc.nodes_info (tid.getD "") with _ | v
                · rw [hdg] at htg
                  exact absurd rfl htg
                · rfl
              · rw [ha]
                exact List.isEmpty_iff.mp hp
            · rw [if_neg hp] at h
              cases h
  · rintro ⟨hs, tid, hr, ht, htg, hp⟩
    rcases hdg : dget svc.nodes_info req.start_node_id with _ | v
    · rw [hdg] at hs
      exact absurd hs (by simp)
    · rw [if_neg (by simp), hr]
      dsimp only
      rw [ht]
      rw [if_neg (by simp)]
      rcases htgv : dget svc.nodes_info (tid.getD "") with _ | v2
      · rw [htgv] at htg
        exact absurd htg (by simp)
      · rw [if_neg (by simp)]
        rcases ha : svc.astar sqrtFn req.start_node_id (tid.getD "") with ⟨d, path⟩
        rw [ha] at hp
        dsimp only at hp
        subst hp
        simp

/-- Decidable equality of handler results, for concrete evaluation. -/
instance {ε α : Type} [DecidableEq ε] [DecidableEq α] : DecidableEq (Except ε α) :=
  fun a b =>
  match a, b with
  | Except.error e1, Except.error e2 =>
    if h : e1 = e2 then isTrue (by rw [h]) else
      isFalse (by intro hh; cases hh; exact h rfl)
  | Except.ok a1, Except.ok a2 =>
    if h : a1 = a2 then isTrue (by rw [h]) else
      isFalse (by intro hh; cases hh; exact h rfl)
  | Except.error e1, Except.ok a2 => isFalse (by intro hh; cases hh)
  | Except.ok a1, Except.error e2 => isFalse (by intro hh; cases hh)

/-- A service whose node index knows "S" and "B" (the latter named "Alpha")
but whose adjacency mapping is empty. -/
def c9Svc : GraphService :=
  ⟨[], [("S", ⟨"S", "Start", none, 1, none, none, none⟩),
    ("B", ⟨"B", "Alpha", none, 1, none, none, none⟩)], [], true⟩

/-- A request supplying both target fields, the exact id being the empty
string (falsy for the handler's truthiness tests). -/
def c9Req : RouteRequest := ⟨"S", some "Alpha", some ""⟩

/-- C9 counterexample: with both target fields supplied, the endpoint is not
independent of `target_name` — for the empty-string `target_node_id` it runs
the fuzzy search on the name (resolving "Alpha" to node "B" and answering the
NoRoute error) whereas without the name it answers BadRequest; so, as stated,
"never consults the fuzzy search when both are supplied" fails. -/
theorem c9_both_supplied_cex :
    c9Req.target_node_id ≠ none ∧ c9Req.target_name ≠ none ∧
      GraphService.calculate_route c9Svc id c9Req ≠
        GraphService.calculate_route c9Svc id { c9Req with target_name := none } := by
  refine ⟨by decide, by decide, ?_⟩
  decide

/-- C9 amended: when `target_node_id` is truthy (present and nonempty) the
endpooint resolves the destination to it and its outcome is independent of
`target_name` (the fuzzy search is never consulted); and whenever
`target_name` is falsy the resolution likewise just keeps `target_node_id` —
so the fuzzy search runs only when `target_node_id` is falsy and
`target_name` truthy. -/
theorem c9_target_id_precedence_amended (svc : GraphService) (sqrtFn : ℚ → ℚ)
    (req : RouteRequest) :
    (truthyStrOpt req.target_node_id = true →
      svc.resolveTargetId req = Except.ok req.target_node_id ∧
        ∀ n, svc.calculate_route sqrtFn { req with target_name := n } =
          svc.calculate_route sqrtFn req) ∧
    (truthyStrOpt req.target_name = false →
      svc.resolveTargetId req = Except.ok req.target_node_id) := by
  constructor
  · intro h
    have hres : ∀ n : Option String,
        svc.resolveTargetId { req with target_name := n } =
          Except.ok req.target_node_id := by
      intro n
      rw [GraphService.resolveTargetId]
      dsimp only
      rw [h]
      simp
    have hres0 : svc.resolveTargetId req = Except.ok req.target_node_id := by
      rw [GraphService.resolveTargetId, h]
      simp
    refine ⟨hres0, fun n => ?_⟩
    rw [GraphService.calculate_route, GraphService.calculate_route]
    dsimp only
    rw [hres n, hres0]
  · intro h
    rw [GraphService.resolveTargetId, h]
    simp

/-! ## Concrete witnesses -/

/-- A two-node graph with one symmetric edge of weight 2. -/
def exSvc : GraphService :=
  ⟨[("A", [("B", 2, "normal")]), ("B", [("A", 2, "normal")])], [], [], true⟩

theorem c1_astar_returns_consistent_path_witness :
    wNonnegB exSvc.graph = true ∧ (dget exSvc.graph "A").isSome = true ∧
      (dget exSvc.graph "B").isSome = true ∧
      ∃ d p, exSvc.astar id "A" "B" = (some d, p) ∧
        ValidPath exSvc.graph "A" "B" p d ∧
        p.head? = some "A" ∧ p.getLast? = some "B" :=
  ⟨by decide, by decide, by decide,
    c1_astar_returns_consistent_path exSvc id "A" "B" (by decide) (by decide)
      (by decide) (Relation.ReflTransGen.single ⟨2, "normal", by decide⟩)⟩

theorem c2_astar_connectivity_witness :
    wNonnegB exSvc.graph = true ∧ symmB exSvc.graph = true ∧
      ((((dget exSvc.graph "A").isSome = false ∨
            (dget exSvc.graph "B").isSome = false) →
          exSvc.astar id "A" "B" = (none, [])) ∧
        ((dget exSvc.graph "A").isSome = true → (dget exSvc.graph "B").isSome = true →
          ((((exSvc.astar id "A" "B").1 ≠ none ∧ (exSvc.astar id "A" "B").2 ≠ []) ↔
              Reachable exSvc.graph "A" "B") ∧
            (¬ Reachable exSvc.graph "A" "B" →
              exSvc.astar id "A" "B" = (none, []))))) :=
  ⟨by decide, by decide, c2_astar_connectivity exSvc id "A" "B" (by decide) (by decide)⟩

theorem c3_heuristic_formula_amended_witness :
    GraphService.heuristic id c3CexNodes "a" "b" =
      heuristicSpecC3Amended id c3CexNodes "a" "b" :=
  c3_heuristic_formula_amended id c3CexNodes "a" "b"

theorem c4_render_steps_shape_witness :
    (["A", "B"].get? 0 = some "A") ∧ (["A", "B"].get? 1 = some "B") ∧
      ∃ st, (exSvc.generate_navigation_steps ["A", "B"]).get? 0 = some st ∧
        st.step_number = 0 + 1 ∧ st.from_node_id = "A" ∧ st.to_node_id = "B" ∧
        st.distance = edgeWeightOf exSvc "A" "B" ∧
        st.edge_type = edgeTypeOf exSvc "A" "B" ∧
        st.floor_change = floorChangeOf exSvc "A" "B" :=
  ⟨rfl, rfl, (c4_render_steps_shape exSvc ["A", "B"]).2.2 0 "A" "B" rfl rfl⟩

/-- Single edge record used to witness the amended load invariants. -/
def c5WEdges : List DBEdge := [⟨"A", "B", 2, "normal", false⟩]

theorem c5_load_graph_invariants_amended_witness :
    (⟨"A", "B", 2, "normal", false⟩ : DBEdge) ∈ c5WEdges ∧
      c5WEdges.Pairwise (fun e1 e2 => ¬ sameUPair e1 e2) ∧
      dget (GraphService.init.load_graph_from_db [] c5WEdges).edges_info ("A", "B") =
        some ⟨2, "normal", false⟩ ∧
      dget (GraphService.init.load_graph_from_db [] c5WEdges).edges_info ("B", "A") =
        some ⟨2, "normal", false⟩ :=
  ⟨by decide, by decide,
    (c5_load_graph_invariants_amended GraphService.init [] c5WEdges
      ⟨"A", "B", 2, "normal", false⟩ (by decide)).2.2.2.2.2 (by decide)⟩

theorem c6_cache_lifecycle_witness : GraphService.init.reload_required = true :=
  c6_cache_lifecycle.1

theorem c7_search_nodes_ci_amended_witness :
    asciiStr "lt5" = true ∧
      c9Svc.search_nodes (strLower "lt5") = c9Svc.search_nodes (strUpper "lt5") :=
  ⟨by decide, (c7_search_nodes_ci_amended c9Svc "lt5").2 (by decide)⟩

theorem c8_noroute_distinct_from_notfound_witness :
    (GraphService.calculate_route c9Svc id c9Req =
        Except.error (404, "无法找到路径，请检查节点是否连通") ↔
      ((dget c9Svc.nodes_info c9Req.start_node_id).isSome = true ∧
        ∃ tid, c9Svc.resolveTargetId c9Req = Except.ok tid ∧
          truthyStrOpt tid = true ∧
          (dget c9Svc.nodes_info (tid.getD "")).isSome = true ∧
          (c9Svc.astar id c9Req.start_node_id (tid.getD "")).2 = [])) ∧
      (∀ s : String,
        ("无法找到路径，请检查节点是否连通" : String) ≠ "起点节点不存在: " ++ s ∧
          ("无法找到路径，请检查节点是否连通" : String) ≠ "未找到匹配的目标: " ++ s ∧
          ("无法找到路径，请检查节点是否连通" : String) ≠ "终点节点不存在: " ++ s ∧
          ("无法找到路径，请检查节点是否连通" : String) ≠
            "请提供 target_name 或 target_node_id") :=
  c8_noroute_distinct_from_notfound c9Svc id c9Req

theorem c9_target_id_precedence_amended_witness :
    truthyStrOpt ((⟨"S", some "Alpha", some "X"⟩ : RouteRequest).target_node_id) = true ∧
      (GraphService.resolveTargetId c9Svc ⟨"S", some "Alpha", some "X"⟩ =
          Except.ok (some "X") ∧
        ∀ n, GraphService.calculate_route c9Svc id
            { (⟨"S", some "Alpha", some "X"⟩ : RouteRequest) with target_name := n } =
          GraphService.calculate_route c9Svc id ⟨"S", some "Alpha", some "X"⟩) :=
  ⟨by decide,
    (c9_target_id_precedence_amended c9Svc id ⟨"S", some "Alpha", some "X"⟩).1 (by decide)⟩

theorem c10_steps_degraded_defaults_witness :
    (["X", "Y"].get? 0 = some "X") ∧ (["X", "Y"].get? 1 = some "Y") ∧
      dget GraphService.init.nodes_info "X" = none ∧
      dget GraphService.init.nodes_info "Y" = none ∧
      dget GraphService.init.edges_info ("X", "Y") = none ∧
      (GraphService.init.generate_navigation_steps ["X", "Y"]).get? 0 =
        some ⟨0 + 1, "Walk about 0M to " ++ "Y", "X", "Y", 0, "normal", none⟩ :=
  ⟨rfl, rfl, rfl, rfl, rfl,
    c10_steps_degraded_defaults GraphService.init ["X", "Y"] 0 "X" "Y" rfl rfl rfl rfl rfl⟩
